import Mathlib

/-!
Verification development for the travel-route planner of the Fibulopedia
repository (`src/pages/Travel_Calculator.py`).

The Python module is shallowly embedded below:
* `BOAT_ROUTES`, `CARPET_ROUTES`, `ICE_ISLANDS`, `CARPET_CITIES`, `ALL_CITIES`
  mirror the module-level constant tables (Python dicts become insertion-ordered
  association lists, which is exactly the iteration order Python guarantees).
* `build_graph` mirrors the adjacency-list construction, including the
  `if key not in graph: graph[key] = []` idiom (`ensureKey`/`addEdge`).
* `find_all_routes` mirrors the modified best-first search.  The Python
  `heapq` priority queue of `(cost, current, path, visited)` tuples is modelled
  by a list together with `popMin`, which removes the least element in the
  lexicographic order on `(cost, current, path)`; two distinct reachable queue
  records never agree on all three components (the `visited` frozenset always
  equals the set of path elements), so this order is total on reachable queue
  contents and `popMin` extracts exactly the record `heapq.heappop` would.
  The unbounded `while` loop is run on explicit fuel `fuelBound`, which is
  proved large enough (`loopSearch_done`) that the loop always terminates by
  queue exhaustion or by reaching `max_routes`, never by running out of fuel.
* `dijkstra` and `format_route` mirror the remaining two functions; Python's
  `(None, None)` result becomes `Option`.  The dead `skip_next` flag of
  `format_route` is kept as the Boolean argument of `formatGo`.
-/

set_option maxHeartbeats 1000000
set_option maxRecDepth 1000000

/-- Character-list prefix test (used to model Python's substring operator). -/
def listPref : List Char → List Char → Bool
  | [], _ => true
  | _ :: _, [] => false
  | a :: as, b :: bs => a == b && listPref as bs

/-- Character-list substring test. -/
def hasSub : List Char → List Char → Bool
  | sub, [] => listPref sub []
  | sub, c :: cs => listPref sub (c :: cs) || hasSub sub cs

/-- Python's `sub in s` on strings. -/
def strContains (s sub : String) : Bool := hasSub sub.data s.data

/-- Adjacency structure: insertion-ordered association list, modelling the
Python dict `{city: [(neighbor, cost), ...]}`. -/
abbrev Graph := List (String × List (String × Nat))

/-- First-match association lookup, i.e. Python `graph[k]` / `k in graph`. -/
def lookupG (g : Graph) (k : String) : Option (List (String × Nat)) :=
  match g with
  | [] => none
  | kl :: rest => if kl.1 == k then some kl.2 else lookupG rest k

/-- Python `k in graph`. -/
def hasKey (g : Graph) (k : String) : Bool := (lookupG g k).isSome

/-- Python `if k not in graph: graph[k] = []`. -/
def ensureKey (g : Graph) (k : String) : Graph :=
  if hasKey g k then g else g ++ [(k, [])]

/-- Python `graph[k].append((v, c))` (key assumed present). -/
def appendEdge (g : Graph) (k v : String) (c : Nat) : Graph :=
  g.map (fun kl => if kl.1 == k then (kl.1, kl.2 ++ [(v, c)]) else kl)

/-- Python `if k not in graph: graph[k] = []` followed by
`graph[k].append((v, c))`. -/
def addEdge (g : Graph) (k v : String) (c : Nat) : Graph :=
  appendEdge (ensureKey g k) k v c

/-- The `BOAT_ROUTES` table, in source order. -/
def BOAT_ROUTES : List ((String × String) × Nat) := [
  (("Ab'Dendriel", "Carlin"), 80),
  (("Ab'Dendriel", "Edron"), 70),
  (("Ab'Dendriel", "Thais"), 130),
  (("Ab'Dendriel", "Venore"), 90),
  (("Carlin", "Ab'Dendriel"), 80),
  (("Carlin", "Thais"), 110),
  (("Carlin", "Venore"), 130),
  (("Darashia", "Venore"), 60),
  (("Edron", "Ab'Dendriel"), 70),
  (("Edron", "Carlin"), 110),
  (("Edron", "Venore"), 40),
  (("Thais", "Ab'Dendriel"), 130),
  (("Thais", "Carlin"), 110),
  (("Thais", "Venore"), 170),
  (("Venore", "Ab'Dendriel"), 90),
  (("Venore", "Carlin"), 130),
  (("Venore", "Darashia"), 60),
  (("Venore", "Edron"), 40),
  (("Venore", "Thais"), 170)]

/-- The `CARPET_ROUTES` table, in source order. -/
def CARPET_ROUTES : List ((String × String) × Nat) := [
  (("Edron Carpet", "Femor Hills Carpet"), 60),
  (("Edron Carpet", "Darashia Carpet"), 40),
  (("Femor Hills Carpet", "Edron Carpet"), 60),
  (("Femor Hills Carpet", "Darashia Carpet"), 80),
  (("Darashia Carpet", "Edron Carpet"), 40),
  (("Darashia Carpet", "Femor Hills Carpet"), 80)]

def ICE_ISLANDS : List String := ["Folda", "Senja", "Vega"]

def CARLIN_TO_ICE_ISLANDS : Nat := 20

/-- The `CARPET_CITIES` dict as an association list. -/
def CARPET_CITIES : List (String × String) := [
  ("Edron", "Edron Carpet"),
  ("Darashia", "Darashia Carpet"),
  ("Femor Hills", "Femor Hills Carpet")]

def ALL_CITIES : List String := [
  "Ab'Dendriel", "Carlin", "Darashia", "Edron",
  "Thais", "Venore", "Folda", "Senja", "Vega", "Femor Hills", "Kazordoon"]

/-- Walking pairs from the `nearby_cities` local of `build_graph`. -/
def NEARBY_CITIES : List (String × String) :=
  [("Femor Hills", "Carlin"), ("Femor Hills", "Kazordoon"), ("Carlin", "Kazordoon")]

/-- `build_graph` from the source: boat routes, ice-island routes with free
return, free walking connections, and optionally the carpet network. -/
def build_graph (include_carpets : Bool) : Graph :=
  let g : Graph := []
  let g := BOAT_ROUTES.foldl (fun g e => addEdge g e.1.1 e.1.2 e.2) g
  let g := ensureKey g "Carlin"
  let g := ICE_ISLANDS.foldl (fun g island =>
    let g := appendEdge g "Carlin" island CARLIN_TO_ICE_ISLANDS
    addEdge g island "Carlin" 0) g
  let g := NEARBY_CITIES.foldl (fun g p =>
    let g := ensureKey g p.1
    let g := ensureKey g p.2
    let g := appendEdge g p.1 p.2 0
    appendEdge g p.2 p.1 0) g
  if include_carpets then
    let g := CARPET_ROUTES.foldl (fun g e => addEdge g e.1.1 e.1.2 e.2) g
    let g := ["Edron", "Darashia"].foldl (fun g city =>
      let carpet := city ++ " Carpet"
      let g := ensureKey g city
      let g := ensureKey g carpet
      let g := appendEdge g city carpet 0
      appendEdge g carpet city 0) g
    let g := ensureKey g "Femor Hills Carpet"
    let g := ensureKey g "Carlin"
    let g := appendEdge g "Carlin" "Femor Hills Carpet" 0
    appendEdge g "Femor Hills Carpet" "Carlin" 0
  else g

/-- A record of the priority queue: Python's `(cost, current, path, visited)`
tuple, with the frozenset `visited` kept as a list (only membership is used;
it always holds exactly the elements of `path`). -/
structure PqEntry where
  cost : Nat
  cur : String
  path : List String
  visited : List String
deriving DecidableEq, Repr

/-- Python code-point comparison of characters. -/
def chLt (a b : Char) : Bool := a.toNat < b.toNat

/-- Python lexicographic comparison of strings (by code point). -/
def clLt : List Char → List Char → Bool
  | [], [] => false
  | [], _ :: _ => true
  | _ :: _, [] => false
  | a :: as, b :: bs => if chLt a b then true else if chLt b a then false else clLt as bs

def strLtB (a b : String) : Bool := clLt a.data b.data

/-- Python lexicographic comparison of lists of strings. -/
def plLt : List String → List String → Bool
  | [], [] => false
  | [], _ :: _ => true
  | _ :: _, [] => false
  | a :: as, b :: bs => if strLtB a b then true else if strLtB b a then false else plLt as bs

/-- Python tuple comparison on `(cost, current, path)`; reachable queue records
never tie on all three components, so the `visited` component (whose frozenset
comparison Python would consult last) is never reached. -/
def entryLt (a b : PqEntry) : Bool :=
  decide (a.cost < b.cost) ||
    (a.cost == b.cost && (strLtB a.cur b.cur || (a.cur == b.cur && plLt a.path b.path)))

/-- `heapq.heappop`: remove the least record (first occurrence) of the queue. -/
def popMin : List PqEntry → Option (PqEntry × List PqEntry)
  | [] => none
  | x :: xs =>
    match popMin xs with
    | none => some (x, [])
    | some (m, rest) => if entryLt m x then some (m, x :: rest) else some (x, xs)

/-- Loop state of `find_all_routes`: the queue, the accepted routes in
acceptance order, and the `route_signatures` set. -/
structure SState where
  pq : List PqEntry
  found : List (Nat × List String)
  sigs : List (List String)
deriving Repr

/-- One expansion: push a record for every outgoing edge whose target is not
yet on the current record's path (`if neighbor not in visited`). -/
def expand (graph : Graph) (r : PqEntry) : List PqEntry :=
  match lookupG graph r.cur with
  | none => []
  | some nbrs =>
    (nbrs.filter (fun nc => !(r.visited.contains nc.1))).map
      (fun nc => ⟨r.cost + nc.2, nc.1, r.path ++ [nc.1], nc.1 :: r.visited⟩)

/-- The `while pq and len(found_routes) < max_routes` loop, on explicit fuel. -/
def loopSearch (graph : Graph) (endLoc : String) (maxRoutes : Nat) : Nat → SState → SState
  | 0, st => st
  | fuel + 1, st =>
    if st.found.length < maxRoutes then
      match popMin st.pq with
      | none => st
      | some (r, rest) =>
        if r.cur == endLoc then
          if st.sigs.contains r.path then
            loopSearch graph endLoc maxRoutes fuel ⟨rest, st.found, st.sigs⟩
          else
            loopSearch graph endLoc maxRoutes fuel
              ⟨rest, st.found ++ [(r.cost, r.path)], r.path :: st.sigs⟩
        else
          loopSearch graph endLoc maxRoutes fuel ⟨rest ++ expand graph r, st.found, st.sigs⟩
    else st

/-- Stable insertion (after equal keys) used to model Python's stable
`found_routes.sort(key=lambda x: x[0])`. -/
def insFound (x : Nat × List String) : List (Nat × List String) → List (Nat × List String)
  | [] => [x]
  | y :: ys => if y.1 ≤ x.1 then y :: insFound x ys else x :: y :: ys

/-- Stable ascending sort by total cost. -/
def sortFound (l : List (Nat × List String)) : List (Nat × List String) :=
  l.foldl (fun acc x => insFound x acc) []

/-- The fixed city/carpet transitions that are discounted both when counting
"real steps" and when formatting legs. -/
def isSkipPair (a b : String) : Bool :=
  (a == "Edron" && b == "Edron Carpet") || (a == "Edron Carpet" && b == "Edron") ||
    (a == "Darashia" && b == "Darashia Carpet") || (a == "Darashia Carpet" && b == "Darashia")

/-- Number of real steps of a path (consecutive pairs that are not skip pairs). -/
def realSteps : List String → Nat
  | a :: b :: rest => (if isSkipPair a b then 0 else 1) + realSteps (b :: rest)
  | _ => 0

/-- Python `any("Carpet" in city for city in path)`. -/
def usesCarpet (path : List String) : Bool := path.any (fun c => strContains c "Carpet")

/-- All node names mentioned by the graph (keys and neighbor names). -/
def nodesOf (graph : Graph) : List String :=
  graph.foldr (fun kl acc => kl.1 :: kl.2.map Prod.fst ++ acc) []

/-- Length of the longest adjacency list. -/
def maxAdj (graph : Graph) : Nat :=
  graph.foldr (fun kl acc => max kl.2.length acc) 0

/-- Fuel that provably exceeds the number of loop iterations (see
`loopSearch_done`): the loop never exhausts it before terminating on its own. -/
def fuelBound (graph : Graph) (start : String) : Nat :=
  (1 + maxAdj graph) ^ ((start :: nodesOf graph).dedup.length + 2)

/-- The post-filter applied after sorting (`direct_routes` preference,
else cheapest plus one alternative of the other carpet category). -/
def routeFilter (found : List (Nat × List String)) : List (Nat × List String) :=
  let directs := found.filter (fun r => realSteps r.2 == 1)
  if directs.isEmpty then
    if found.length ≤ 2 then found
    else
      match found with
      | [] => []
      | cheapest :: rest =>
        cheapest ::
          (match rest.find? (fun r => usesCarpet r.2 != usesCarpet cheapest.2) with
           | some r => [r]
           | none => [])
  else directs.take 2

/-- The accepted candidate set of a query, sorted (the value of
`found_routes` after the `sort` call and before the post-filter). -/
def acceptedRoutes (graph : Graph) (start endLoc : String) (max_routes : Nat) :
    List (Nat × List String) :=
  match lookupG graph start with
  | none => []
  | some _ =>
    (sortFound (loopSearch graph endLoc max_routes (fuelBound graph start)
      ⟨[⟨0, start, [start], [start]⟩], [], []⟩).found)

/-- `find_all_routes` from the source. -/
def find_all_routes (graph : Graph) (start endLoc : String) (max_routes : Nat) :
    List (Nat × List String) :=
  match lookupG graph start with
  | none => []
  | some _ =>
    routeFilter (sortFound (loopSearch graph endLoc max_routes (fuelBound graph start)
      ⟨[⟨0, start, [start], [start]⟩], [], []⟩).found)

/-- `dijkstra` from the source; Python's `(None, None)` becomes `none`. -/
def dijkstra (graph : Graph) (start endLoc : String) : Option (Nat × List String) :=
  match find_all_routes graph start endLoc 1 with
  | r :: _ => some r
  | [] => none

/-- One formatted leg (the dict `{"from": ..., "to": ..., "cost": ...,
"transport": ...}`). -/
structure Leg where
  «from» : String
  «to» : String
  cost : Nat
  transport : String
deriving DecidableEq, Repr

/-- First-match cost lookup of `format_route` (`cost = 0` default, then scan
`graph[from_city]` breaking at the first matching neighbor). -/
def edgeCost (graph : Graph) (u v : String) : Nat :=
  match lookupG graph u with
  | none => 0
  | some l =>
    match l.find? (fun nc => nc.1 == v) with
    | some nc => nc.2
    | none => 0

/-- Transport labelling of `format_route`. -/
def transportFor (fromCity toCity : String) (cost : Nat) : String :=
  if (CARPET_CITIES.map Prod.snd).contains fromCity
      || (CARPET_CITIES.map Prod.snd).contains toCity then
    if cost == 0 then "🚶 Walk" else "🪂 Carpet"
  else if fromCity == "Carlin" && ICE_ISLANDS.contains toCity then "⛵ Boat"
  else if ICE_ISLANDS.contains fromCity && toCity == "Carlin" then "⛵ Boat (Free Return)"
  else "⛵ Boat"

/-- Consecutive pairs of a path (the `range(len(path) - 1)` iteration). -/
def pairsOf : List String → List (String × String)
  | a :: b :: rest => (a, b) :: pairsOf (b :: rest)
  | _ => []

/-- Body of the `format_route` loop.  The Boolean argument is the source's
`skip_next` flag (it is initialised to `False` and never set, so it is dead,
but it is kept for fidelity). -/
def formatGo (graph : Graph) : Bool → List (String × String) → List Leg
  | _, [] => []
  | true, _ :: rest => formatGo graph false rest
  | false, (a, b) :: rest =>
    if isSkipPair a b then formatGo graph false rest
    else
      { «from» := a, «to» := b, cost := edgeCost graph a b,
        transport := transportFor a b (edgeCost graph a b) } :: formatGo graph false rest

/-- `format_route` from the source. -/
def format_route (path : List String) (graph : Graph) : List Leg :=
  if path.length < 2 then [] else formatGo graph false (pairsOf path)

/-- Sum of the edge costs along a path, with `format_route`'s first-match
lookup for each consecutive pair. -/
def pathCost (graph : Graph) : List String → Nat
  | a :: b :: rest => edgeCost graph a b + pathCost graph (b :: rest)
  | _ => 0

/-- Decidable "every consecutive pair is an edge of the graph". -/
def chainB (graph : Graph) : List String → Bool
  | a :: b :: rest =>
    (match lookupG graph a with
     | none => false
     | some l => l.any (fun nc => nc.1 == b)) && chainB graph (b :: rest)
  | _ => true

/-- The outgoing adjacency list of a node (empty when the node is unknown). -/
def adjOf (graph : Graph) (u : String) : List (String × Nat) :=
  (lookupG graph u).getD []

/-- A simple path from `s` to `e` in the graph: nonempty, starts at `s`,
ends at `e`, repeats no location, and follows edges of the graph. -/
def SimplePathFrom (graph : Graph) (s e : String) (p : List String) : Prop :=
  p ≠ [] ∧ p.head? = some s ∧ p.getLast? = some e ∧ p.Nodup ∧ chainB graph p = true

/-- Every adjacency list mentions each neighbor at most once (true of both
graphs `build_graph` can produce; it makes the first-match cost lookup
unambiguous). -/
def nodupNbrs (graph : Graph) : Prop := ∀ kl ∈ graph, (kl.2.map Prod.fst).Nodup

/-! ### The queue order and `popMin` -/

theorem entryLt_false_le {a b : PqEntry} (h : entryLt a b = false) : b.cost ≤ a.cost := by
  unfold entryLt at h
  simp only [Bool.or_eq_false_iff, decide_eq_false_iff_not] at h
  exact Nat.le_of_not_lt h.1

theorem entryLt_true_le {a b : PqEntry} (h : entryLt a b = true) : a.cost ≤ b.cost := by
  unfold entryLt at h
  simp only [Bool.or_eq_true, decide_eq_true_eq, Bool.and_eq_true, beq_iff_eq] at h
  rcases h with h | ⟨h, _⟩
  · exact Nat.le_of_lt h
  · exact Nat.le_of_eq h

theorem popMin_eq_none {l : List PqEntry} : popMin l = none ↔ l = [] := by
  cases l with
  | nil => simp [popMin]
  | cons x xs =>
    simp only [popMin]
    cases h : popMin xs with
    | none => simp
    | some p =>
      obtain ⟨m, rest⟩ := p
      by_cases hlt : entryLt m x <;> simp [hlt]

/-- `popMin` pops a member of least cost and leaves a permutation of the rest. -/
theorem popMin_spec {l : List PqEntry} {m : PqEntry} {rest : List PqEntry}
    (h : popMin l = some (m, rest)) :
    l.Perm (m :: rest) ∧ ∀ r ∈ l, m.cost ≤ r.cost := by
  induction l generalizing m rest with
  | nil => simp [popMin] at h
  | cons x xs ih =>
    simp only [popMin] at h
    cases hx : popMin xs with
    | none =>
      rw [hx] at h
      have hxs : xs = [] := popMin_eq_none.mp hx
      simp only [Option.some.injEq, Prod.mk.injEq] at h
      obtain ⟨rfl, rfl⟩ := h
      subst hxs
      exact ⟨List.Perm.refl _, by simp⟩
    | some p =>
      obtain ⟨m', rest'⟩ := p
      rw [hx] at h
      dsimp only at h
      obtain ⟨hperm', hmin'⟩ := ih hx
      by_cases hlt : entryLt m' x
      · rw [if_pos hlt] at h
        simp only [Option.some.injEq, Prod.mk.injEq] at h
        obtain ⟨rfl, rfl⟩ := h
        refine ⟨(hperm'.cons x).trans (List.Perm.swap m' x rest'), ?_⟩
        intro r hr
        rcases List.mem_cons.mp hr with rfl | hr
        · exact entryLt_true_le hlt
        · exact hmin' r hr
      · rw [if_neg hlt] at h
        simp only [Option.some.injEq, Prod.mk.injEq] at h
        obtain ⟨rfl, rfl⟩ := h
        refine ⟨List.Perm.refl _, ?_⟩
        intro r hr
        rcases List.mem_cons.mp hr with rfl | hr
        · exact Nat.le_refl _
        · exact Nat.le_trans (entryLt_false_le (Bool.eq_false_iff.mpr hlt)) (hmin' r hr)

theorem popMin_mem {l : List PqEntry} {m : PqEntry} {rest : List PqEntry}
    (h : popMin l = some (m, rest)) : m ∈ l :=
  ((popMin_spec h).1.mem_iff).mpr (List.mem_cons_self m rest)

theorem popMin_mem_iff {l : List PqEntry} {m r : PqEntry} {rest : List PqEntry}
    (h : popMin l = some (m, rest)) : r ∈ l ↔ r = m ∨ r ∈ rest := by
  rw [(popMin_spec h).1.mem_iff, List.mem_cons]

/-! ### The stable sort by cost -/

/-- Ordering relation of the Python `sort(key=lambda x: x[0])`. -/
def costLe (a b : Nat × List String) : Prop := a.1 ≤ b.1

theorem insFound_perm (x : Nat × List String) (l : List (Nat × List String)) :
    (insFound x l).Perm (x :: l) := by
  induction l with
  | nil => simp [insFound]
  | cons y ys ih =>
    simp only [insFound]
    by_cases hy : y.1 ≤ x.1
    · rw [if_pos hy]
      exact (ih.cons y).trans (List.Perm.swap x y ys)
    · rw [if_neg hy]

theorem insFound_mem {x y : Nat × List String} {l : List (Nat × List String)} :
    y ∈ insFound x l ↔ y = x ∨ y ∈ l := by
  rw [(insFound_perm x l).mem_iff, List.mem_cons]

theorem insFound_pairwise {x : Nat × List String} {l : List (Nat × List String)}
    (h : l.Pairwise costLe) : (insFound x l).Pairwise costLe := by
  induction l with
  | nil => simp [insFound]
  | cons y ys ih =>
    rw [List.pairwise_cons] at h
    obtain ⟨hy, hys⟩ := h
    simp only [insFound]
    by_cases hle : y.1 ≤ x.1
    · rw [if_pos hle, List.pairwise_cons]
      refine ⟨?_, ih hys⟩
      intro z hz
      rcases insFound_mem.mp hz with rfl | hz
      · exact hle
      · exact hy z hz
    · rw [if_neg hle, List.pairwise_cons]
      refine ⟨?_, List.pairwise_cons.mpr ⟨hy, hys⟩⟩
      intro z hz
      have hxy : x.1 ≤ y.1 := Nat.le_of_lt (Nat.lt_of_not_le hle)
      rcases List.mem_cons.mp hz with rfl | hz
      · exact hxy
      · exact Nat.le_trans hxy (hy z hz)

theorem sortFound_aux (l : List (Nat × List String)) :
    ∀ acc, acc.Pairwise costLe →
      (List.foldl (fun acc x => insFound x acc) acc l).Perm (l ++ acc) ∧
        (List.foldl (fun acc x => insFound x acc) acc l).Pairwise costLe := by
  induction l with
  | nil => intro acc h; exact ⟨by simp, h⟩
  | cons x l ih =>
    intro acc hacc
    simp only [List.foldl_cons]
    obtain ⟨hp, hs⟩ := ih (insFound x acc) (insFound_pairwise hacc)
    refine ⟨hp.trans ?_, hs⟩
    exact (List.Perm.append_left l (insFound_perm x acc)).trans List.perm_middle

theorem sortFound_perm (l : List (Nat × List String)) : (sortFound l).Perm l := by
  have h := (sortFound_aux l [] (by simp)).1
  simpa [sortFound] using h

theorem sortFound_pairwise (l : List (Nat × List String)) : (sortFound l).Pairwise costLe :=
  (sortFound_aux l [] (by simp)).2

/-- The head of a cost-sorted list bounds every member of any permutation. -/
theorem sorted_head_min {h : Nat × List String} {t l : List (Nat × List String)}
    (hsort : (h :: t).Pairwise costLe) (hperm : (h :: t).Perm l) :
    ∀ y ∈ l, h.1 ≤ y.1 := by
  intro y hy
  rcases List.mem_cons.mp (hperm.mem_iff.mpr hy) with rfl | hyt
  · exact Nat.le_refl _
  · exact (List.pairwise_cons.mp hsort).1 y hyt

/-! ### The post-filter -/

/-- Whatever branch it takes, the post-filter returns a sublist of the
accepted (sorted) route list. -/
theorem routeFilter_sublist (l : List (Nat × List String)) :
    List.Sublist (routeFilter l) l := by
  unfold routeFilter
  by_cases hd : (l.filter (fun r => realSteps r.2 == 1)).isEmpty
  · rw [if_pos hd]
    by_cases hlen : l.length ≤ 2
    · rw [if_pos hlen]
    · rw [if_neg hlen]
      cases l with
      | nil => simp
      | cons cheapest rest =>
        cases hf : rest.find? (fun r => usesCarpet r.2 != usesCarpet cheapest.2) with
        | none =>
          simp only [hf]
          exact List.Sublist.cons₂ cheapest (List.nil_sublist rest)
        | some r =>
          have hr : r ∈ rest := List.mem_of_find?_eq_some hf
          simp only [hf]
          exact List.Sublist.cons₂ cheapest (List.singleton_sublist.mpr hr)
  · rw [if_neg hd]
    exact (List.take_sublist 2 _).trans (List.filter_sublist l)

/-! ### Graph and path helper lemmas -/

theorem containsIffMem {α : Type} [BEq α] [LawfulBEq α] {l : List α} {a : α} :
    l.contains a = true ↔ a ∈ l := by
  simp [List.contains, List.elem_iff]

theorem lookupG_mem {g : Graph} {k : String} {l : List (String × Nat)}
    (h : lookupG g k = some l) : (k, l) ∈ g := by
  induction g with
  | nil => simp [lookupG] at h
  | cons kl rest ih =>
    rw [lookupG] at h
    by_cases hk : (kl.1 == k) = true
    · rw [if_pos hk] at h
      have hkeq : kl.1 = k := beq_iff_eq.mp hk
      have hl : kl.2 = l := by simpa using h
      have hkl : kl = (k, l) := by cases kl; simp_all
      rw [← hkl]
      exact List.mem_cons_self _ _
    · rw [if_neg hk] at h
      exact List.mem_cons_of_mem _ (ih h)

theorem nodesOf_cons (kl : String × List (String × Nat)) (g : Graph) :
    nodesOf (kl :: g) = kl.1 :: kl.2.map Prod.fst ++ nodesOf g := rfl

theorem mem_nodesOf_key {g : Graph} {k : String} {l : List (String × Nat)}
    (h : (k, l) ∈ g) : k ∈ nodesOf g := by
  induction g with
  | nil => simp at h
  | cons kl rest ih =>
    rw [nodesOf_cons]
    rcases List.mem_cons.mp h with rfl | h
    · exact List.mem_cons_self _ _
    · exact List.mem_cons_of_mem _ (List.mem_append_right _ (ih h))

theorem mem_nodesOf_nbr {g : Graph} {k v : String} {l : List (String × Nat)} {c : Nat}
    (h : (k, l) ∈ g) (hv : (v, c) ∈ l) : v ∈ nodesOf g := by
  induction g with
  | nil => simp at h
  | cons kl rest ih =>
    rw [nodesOf_cons]
    rcases List.mem_cons.mp h with heq | h
    · obtain rfl := heq
      refine List.mem_cons_of_mem _ (List.mem_append_left _ ?_)
      exact List.mem_map.mpr ⟨(v, c), hv, rfl⟩
    · exact List.mem_cons_of_mem _ (List.mem_append_right _ (ih h))

/-- Decidable edge test used by `chainB`. -/
def edgeB (graph : Graph) (a b : String) : Bool :=
  match lookupG graph a with
  | none => false
  | some l => l.any (fun nc => nc.1 == b)

theorem chainB_cons_cons (graph : Graph) (a b : String) (rest : List String) :
    chainB graph (a :: b :: rest) = (edgeB graph a b && chainB graph (b :: rest)) := rfl

theorem edgeB_iff {graph : Graph} {a b : String} :
    edgeB graph a b = true ↔ ∃ l c, lookupG graph a = some l ∧ (b, c) ∈ l := by
  unfold edgeB
  cases h : lookupG graph a with
  | none => simp [h]
  | some l =>
    simp only [h, List.any_eq_true, Option.some.injEq]
    constructor
    · rintro ⟨nc, hnc, hb⟩
      exact ⟨l, nc.2, rfl, by
        have : nc.1 = b := beq_iff_eq.mp hb
        cases nc
        simp_all⟩
    · rintro ⟨l', c, hl, hbl⟩
      obtain rfl := hl
      exact ⟨(b, c), hbl, beq_self_eq_true b⟩

theorem chainB_append_last {graph : Graph} {p : List String} {u v : String}
    {l : List (String × Nat)} {c : Nat}
    (hch : chainB graph p = true) (hlast : p.getLast? = some u)
    (hlk : lookupG graph u = some l) (hv : (v, c) ∈ l) :
    chainB graph (p ++ [v]) = true := by
  induction p with
  | nil => simp at hlast
  | cons a t ih =>
    cases t with
    | nil =>
      simp only [List.getLast?_singleton, Option.some.injEq] at hlast
      subst hlast
      show chainB graph (a :: v :: []) = true
      rw [chainB_cons_cons]
      have he : edgeB graph a v = true := edgeB_iff.mpr ⟨l, c, hlk, hv⟩
      simp [he, chainB]
    | cons b t' =>
      rw [List.getLast?_cons_cons] at hlast
      rw [chainB_cons_cons, Bool.and_eq_true] at hch
      obtain ⟨he, hch'⟩ := hch
      show chainB graph (a :: ((b :: t') ++ [v])) = true
      have : (b :: t') ++ [v] = b :: (t' ++ [v]) := rfl
      rw [this, chainB_cons_cons]
      have := ih hch' hlast
      rw [List.cons_append] at this
      simp [he, this]

theorem head?_append_single {p : List String} {v : String} (h : p ≠ []) :
    (p ++ [v]).head? = p.head? := by
  cases p with
  | nil => exact absurd rfl h
  | cons a t => rfl

/-! ### The search invariant -/

/-- The node universe of a search: the start node plus everything mentioned
by the graph. -/
def searchNodes (graph : Graph) (start : String) : List String :=
  (start :: nodesOf graph).dedup

theorem nodesOf_subset_searchNodes {graph : Graph} {start x : String}
    (h : x ∈ nodesOf graph) : x ∈ searchNodes graph start :=
  List.mem_dedup.mpr (List.mem_cons_of_mem _ h)

theorem start_mem_searchNodes (graph : Graph) (start : String) :
    start ∈ searchNodes graph start :=
  List.mem_dedup.mpr (List.mem_cons_self _ _)

/-- What is always true of a queue record: its path is a nonempty duplicate-free
chain of graph edges from `start` to its current node, it stays inside the node
universe, and the `visited` set is exactly the set of path elements. -/
def entryWF (graph : Graph) (start : String) (S : List String) (r : PqEntry) : Prop :=
  r.path ≠ [] ∧ r.path.head? = some start ∧ r.path.getLast? = some r.cur ∧
    r.path.Nodup ∧ (∀ x ∈ r.path, x ∈ S) ∧ chainB graph r.path = true ∧
    r.visited = r.path.reverse

/-- What is always true of an accepted route. -/
def routeWF (graph : Graph) (start endLoc : String) (S : List String)
    (f : Nat × List String) : Prop :=
  f.2 ≠ [] ∧ f.2.head? = some start ∧ f.2.getLast? = some endLoc ∧
    f.2.Nodup ∧ (∀ x ∈ f.2, x ∈ S) ∧ chainB graph f.2 = true

/-- The loop invariant tying together queue, accepted routes and signatures. -/
structure StWF (graph : Graph) (start endLoc : String) (S : List String)
    (st : SState) : Prop where
  pqWF : ∀ r ∈ st.pq, entryWF graph start S r
  fdWF : ∀ f ∈ st.found, routeWF graph start endLoc S f
  sigsEq : ∀ p, p ∈ st.sigs ↔ p ∈ st.found.map Prod.snd
  fdNodup : (st.found.map Prod.snd).Nodup

theorem expand_entryWF {graph : Graph} {start : String} {r : PqEntry}
    (hr : entryWF graph start (searchNodes graph start) r) :
    ∀ r' ∈ expand graph r, entryWF graph start (searchNodes graph start) r' := by
  intro r' hr'
  obtain ⟨hne, hhead, hlast, hnd, hsub, hch, hvis⟩ := hr
  unfold expand at hr'
  cases hlk : lookupG graph r.cur with
  | none => rw [hlk] at hr'; simp at hr'
  | some nbrs =>
    rw [hlk] at hr'
    dsimp only at hr'
    obtain ⟨nc, hncf, rfl⟩ := List.mem_map.mp hr'
    obtain ⟨nv, ncost⟩ := nc
    obtain ⟨hncm, hncv⟩ := List.mem_filter.mp hncf
    have hnotvis : nv ∉ r.path := by
      intro hmem
      have hv2 : nv ∈ r.visited := hvis ▸ List.mem_reverse.mpr hmem
      have hc : r.visited.contains nv = true := containsIffMem.mpr hv2
      simp_all
    refine ⟨by simp, ?_, ?_, ?_, ?_, ?_, ?_⟩
    · rw [head?_append_single hne]; exact hhead
    · exact List.getLast?_concat r.path
    · simp [List.nodup_append, hnd, hnotvis]
    · intro x hx
      rcases List.mem_append.mp hx with hx | hx
      · exact hsub x hx
      · rw [List.mem_singleton] at hx
        subst hx
        exact nodesOf_subset_searchNodes (mem_nodesOf_nbr (lookupG_mem hlk) hncm)
    · exact chainB_append_last hch hlast hlk hncm
    · rw [hvis]; simp

/-! ### Generic loop preservation -/

/-- Any predicate stable under the three kinds of loop step (accept a new
route, drop a duplicate signature, expand a node) is preserved by the loop,
whatever the fuel. -/
theorem loopSearch_inv (graph : Graph) (endLoc : String) (maxRoutes : Nat)
    (P : SState → Prop)
    (hacc : ∀ st r rest, P st → st.found.length < maxRoutes →
      popMin st.pq = some (r, rest) → (r.cur == endLoc) = true →
      st.sigs.contains r.path = false →
      P ⟨rest, st.found ++ [(r.cost, r.path)], r.path :: st.sigs⟩)
    (hdup : ∀ st r rest, P st → st.found.length < maxRoutes →
      popMin st.pq = some (r, rest) → (r.cur == endLoc) = true →
      st.sigs.contains r.path = true → P ⟨rest, st.found, st.sigs⟩)
    (hexp : ∀ st r rest, P st → st.found.length < maxRoutes →
      popMin st.pq = some (r, rest) → (r.cur == endLoc) = false →
      P ⟨rest ++ expand graph r, st.found, st.sigs⟩) :
    ∀ fuel st, P st → P (loopSearch graph endLoc maxRoutes fuel st) := by
  intro fuel
  induction fuel with
  | zero => intro st h; exact h
  | succ fuel ih =>
    intro st h
    rw [loopSearch]
    by_cases hlen : st.found.length < maxRoutes
    · rw [if_pos hlen]
      cases hpop : popMin st.pq with
      | none => exact h
      | some pr =>
        obtain ⟨r, rest⟩ := pr
        dsimp only
        by_cases hcur : (r.cur == endLoc) = true
        · rw [if_pos hcur]
          by_cases hsig : st.sigs.contains r.path = true
          · rw [if_pos hsig]
            exact ih _ (hdup st r rest h hlen hpop hcur hsig)
          · rw [if_neg hsig]
            exact ih _ (hacc st r rest h hlen hpop hcur (Bool.eq_false_iff.mpr hsig))
        · rw [if_neg hcur]
          exact ih _ (hexp st r rest h hlen hpop (Bool.eq_false_iff.mpr hcur))
    · rw [if_neg hlen]
      exact h

/-- Accepting a freshly signed route preserves well-formedness. -/
theorem StWF_step_acc {graph : Graph} {start endLoc : String} {st : SState}
    {r : PqEntry} {rest : List PqEntry}
    (hP : StWF graph start endLoc (searchNodes graph start) st)
    (hpop : popMin st.pq = some (r, rest)) (hcur : (r.cur == endLoc) = true)
    (hsig : st.sigs.contains r.path = false) :
    StWF graph start endLoc (searchNodes graph start)
      ⟨rest, st.found ++ [(r.cost, r.path)], r.path :: st.sigs⟩ := by
  have hr : r ∈ st.pq := popMin_mem hpop
  obtain ⟨hne, hhead, hlast, hnd, hsub, hch, hvis⟩ := hP.pqWF r hr
  have hcur' : r.cur = endLoc := beq_iff_eq.mp hcur
  have hnotsig : r.path ∉ st.sigs := fun hmem => by
    rw [containsIffMem.mpr hmem] at hsig
    exact Bool.true_eq_false.mp hsig
  refine ⟨?_, ?_, ?_, ?_⟩
  · intro r' hr'
    exact hP.pqWF r' (((popMin_spec hpop).1.mem_iff).mpr (List.mem_cons_of_mem _ hr'))
  · intro f hf
    rcases List.mem_append.mp hf with hf | hf
    · exact hP.fdWF f hf
    · rw [List.mem_singleton] at hf
      subst hf
      exact ⟨hne, hhead, hcur' ▸ hlast, hnd, hsub, hch⟩
  · intro p
    simp only [List.mem_cons, List.map_append, List.map_cons, List.map_nil,
      List.mem_append, List.mem_singleton]
    rw [hP.sigsEq p]
    tauto
  · have hnm : r.path ∉ st.found.map Prod.snd := fun hmem =>
      hnotsig ((hP.sigsEq r.path).mpr hmem)
    simp only [List.map_append, List.map_cons, List.map_nil]
    simp [List.nodup_append, hP.fdNodup, hnm]

/-- Dropping a duplicate-signature record preserves well-formedness. -/
theorem StWF_step_dup {graph : Graph} {start endLoc : String} {st : SState}
    {r : PqEntry} {rest : List PqEntry}
    (hP : StWF graph start endLoc (searchNodes graph start) st)
    (hpop : popMin st.pq = some (r, rest)) :
    StWF graph start endLoc (searchNodes graph start) ⟨rest, st.found, st.sigs⟩ := by
  refine ⟨?_, hP.fdWF, hP.sigsEq, hP.fdNodup⟩
  intro r' hr'
  exact hP.pqWF r' (((popMin_spec hpop).1.mem_iff).mpr (List.mem_cons_of_mem _ hr'))

/-- Expanding a record preserves well-formedness. -/
theorem StWF_step_exp {graph : Graph} {start endLoc : String} {st : SState}
    {r : PqEntry} {rest : List PqEntry}
    (hP : StWF graph start endLoc (searchNodes graph start) st)
    (hpop : popMin st.pq = some (r, rest)) :
    StWF graph start endLoc (searchNodes graph start)
      ⟨rest ++ expand graph r, st.found, st.sigs⟩ := by
  have hr : r ∈ st.pq := popMin_mem hpop
  refine ⟨?_, hP.fdWF, hP.sigsEq, hP.fdNodup⟩
  intro r' hr'
  rcases List.mem_append.mp hr' with hr' | hr'
  · exact hP.pqWF r' (((popMin_spec hpop).1.mem_iff).mpr (List.mem_cons_of_mem _ hr'))
  · exact expand_entryWF (hP.pqWF r hr) r' hr'

/-- The well-formedness invariant is preserved by the loop. -/
theorem loopSearch_StWF {graph : Graph} {start endLoc : String} {m : Nat}
    (fuel : Nat) (st : SState)
    (h : StWF graph start endLoc (searchNodes graph start) st) :
    StWF graph start endLoc (searchNodes graph start)
      (loopSearch graph endLoc m fuel st) := by
  refine loopSearch_inv graph endLoc m _ ?_ ?_ ?_ fuel st h
  · intro st r rest hP hlen hpop hcur hsig
    exact StWF_step_acc hP hpop hcur hsig
  · intro st r rest hP hlen hpop hcur hsig
    exact StWF_step_dup hP hpop
  · intro st r rest hP hlen hpop hcur
    exact StWF_step_exp hP hpop

/-- The initial state of a query is well-formed. -/
theorem StWF_init (graph : Graph) (start endLoc : String) :
    StWF graph start endLoc (searchNodes graph start)
      ⟨[⟨0, start, [start], [start]⟩], [], []⟩ := by
  refine ⟨?_, by simp, by simp, by simp⟩
  intro r hr
  rw [List.mem_singleton] at hr
  subst hr
  exact ⟨by simp, rfl, rfl, by simp, by
    intro x hx
    rw [List.mem_singleton] at hx
    rw [hx]
    exact start_mem_searchNodes graph start, rfl, rfl⟩

/-! ### Termination: the loop never runs out of fuel -/

/-- Queue potential: a record with path length `L` contributes
`beta ^ (n + 1 - L)`; popping a record and pushing at most `beta - 1`
successors of longer paths strictly decreases the total. -/
def muQ (beta n : Nat) (pq : List PqEntry) : Nat :=
  (pq.map (fun r => beta ^ (n + 1 - r.path.length))).sum

theorem muQ_nil (beta n : Nat) : muQ beta n [] = 0 := rfl

theorem muQ_cons (beta n : Nat) (r : PqEntry) (pq : List PqEntry) :
    muQ beta n (r :: pq) = beta ^ (n + 1 - r.path.length) + muQ beta n pq := rfl

theorem muQ_append (beta n : Nat) (l₁ l₂ : List PqEntry) :
    muQ beta n (l₁ ++ l₂) = muQ beta n l₁ + muQ beta n l₂ := by
  unfold muQ
  rw [List.map_append, List.sum_append]

theorem muQ_perm {beta n : Nat} {l₁ l₂ : List PqEntry} (h : l₁.Perm l₂) :
    muQ beta n l₁ = muQ beta n l₂ :=
  (h.map _).sum_eq

/-- A duplicate-free list inside a universe is no longer than the universe. -/
theorem nodup_subset_length_le {p S : List String} (hnd : p.Nodup)
    (hsub : ∀ x ∈ p, x ∈ S) : p.length ≤ S.length := by
  calc p.length = p.toFinset.card := (List.toFinset_card_of_nodup hnd).symm
    _ ≤ S.toFinset.card := Finset.card_le_card
        (fun x hx => List.mem_toFinset.mpr (hsub x (List.mem_toFinset.mp hx)))
    _ ≤ S.length := List.toFinset_card_le S

theorem maxAdj_cons (kl : String × List (String × Nat)) (g : Graph) :
    maxAdj (kl :: g) = max kl.2.length (maxAdj g) := rfl

theorem maxAdj_mem {g : Graph} {k : String} {l : List (String × Nat)}
    (h : (k, l) ∈ g) : l.length ≤ maxAdj g := by
  induction g with
  | nil => simp at h
  | cons kl rest ih =>
    rw [maxAdj_cons]
    rcases List.mem_cons.mp h with heq | h
    · rw [← heq]
      exact Nat.le_max_left _ _
    · exact Nat.le_trans (ih h) (Nat.le_max_right _ _)

theorem expand_length_le (graph : Graph) (r : PqEntry) :
    (expand graph r).length ≤ maxAdj graph := by
  unfold expand
  cases hlk : lookupG graph r.cur with
  | none => simp
  | some nbrs =>
    calc (List.map _ (nbrs.filter _)).length
        = (nbrs.filter _).length := List.length_map _ _
      _ ≤ nbrs.length := List.length_filter_le _ _
      _ ≤ maxAdj graph := maxAdj_mem (lookupG_mem hlk)

theorem expand_path_length {graph : Graph} {r r' : PqEntry} (h : r' ∈ expand graph r) :
    r'.path.length = r.path.length + 1 := by
  unfold expand at h
  cases hlk : lookupG graph r.cur with
  | none => rw [hlk] at h; simp at h
  | some nbrs =>
    rw [hlk] at h
    dsimp only at h
    obtain ⟨nc, _, rfl⟩ := List.mem_map.mp h
    simp

theorem sum_map_const_of {α : Type} {l : List α} {f : α → Nat} {c : Nat}
    (h : ∀ x ∈ l, f x = c) : (l.map f).sum = l.length * c := by
  induction l with
  | nil => simp
  | cons x xs ih =>
    simp only [List.map_cons, List.sum_cons, List.length_cons]
    rw [h x (List.mem_cons_self _ _), ih (fun y hy => h y (List.mem_cons_of_mem _ hy))]
    ring

/-- Popping and expanding strictly decreases the queue potential. -/
theorem muQ_expand_lt {graph : Graph} {start : String} {r : PqEntry}
    (rest : List PqEntry)
    (hr : entryWF graph start (searchNodes graph start) r) :
    muQ (1 + maxAdj graph) (searchNodes graph start).length (rest ++ expand graph r) <
      muQ (1 + maxAdj graph) (searchNodes graph start).length (r :: rest) := by
  set beta := 1 + maxAdj graph with hbeta
  set n := (searchNodes graph start).length with hn
  obtain ⟨hne, _, _, hnd, hsub, _, _⟩ := hr
  have hL : r.path.length ≤ n := nodup_subset_length_le hnd hsub
  have hone : 1 ≤ beta := Nat.le_add_right 1 _
  have hx : 1 ≤ beta ^ (n - r.path.length) := Nat.one_le_pow _ _ hone
  have hterm : beta ^ (n + 1 - r.path.length) = beta ^ (n - r.path.length) * beta := by
    rw [Nat.succ_sub hL, pow_succ]
  have hexp : muQ beta n (expand graph r) ≤ maxAdj graph * beta ^ (n - r.path.length) := by
    have hconst : ∀ r' ∈ expand graph r,
        (fun rr : PqEntry => beta ^ (n + 1 - rr.path.length)) r' =
          beta ^ (n - r.path.length) := by
      intro r' hr'
      simp only
      rw [expand_path_length hr', Nat.succ_sub_succ]
    unfold muQ
    rw [sum_map_const_of hconst]
    exact Nat.mul_le_mul_right _ (expand_length_le graph r)
  rw [muQ_append, muQ_cons]
  calc muQ beta n rest + muQ beta n (expand graph r)
      ≤ muQ beta n rest + maxAdj graph * beta ^ (n - r.path.length) :=
        Nat.add_le_add_left hexp _
    _ < muQ beta n rest + beta * beta ^ (n - r.path.length) := by
        apply Nat.add_lt_add_left
        have : maxAdj graph < beta := by omega
        exact Nat.mul_lt_mul_of_lt_of_le this (Nat.le_refl _) (Nat.lt_of_lt_of_le Nat.zero_lt_one hx)
    _ = beta ^ (n + 1 - r.path.length) + muQ beta n rest := by
        rw [hterm]; ring

/-- With fuel at least the initial queue potential, the loop terminates on its
own: on return the queue is exhausted or the budget has been reached.  The
fuel is therefore never the reason the loop stops. -/
theorem loopSearch_done {graph : Graph} {start endLoc : String} {m : Nat} :
    ∀ fuel st, StWF graph start endLoc (searchNodes graph start) st →
      muQ (1 + maxAdj graph) (searchNodes graph start).length st.pq ≤ fuel →
      (loopSearch graph endLoc m fuel st).pq = [] ∨
        m ≤ (loopSearch graph endLoc m fuel st).found.length := by
  intro fuel
  induction fuel with
  | zero =>
    intro st hwf hmu
    left
    show st.pq = []
    cases hq : st.pq with
    | nil => rfl
    | cons x xs =>
      exfalso
      rw [hq, muQ_cons] at hmu
      have : 1 ≤ (1 + maxAdj graph) ^ ((searchNodes graph start).length + 1 - x.path.length) :=
        Nat.one_le_pow _ _ (Nat.le_add_right 1 _)
      omega
  | succ fuel ih =>
    intro st hwf hmu
    rw [loopSearch]
    by_cases hlen : st.found.length < m
    · rw [if_pos hlen]
      cases hpop : popMin st.pq with
      | none =>
        left
        exact popMin_eq_none.mp hpop
      | some pr =>
        obtain ⟨r, rest⟩ := pr
        dsimp only
        have hperm := (popMin_spec hpop).1
        have hmu' : muQ (1 + maxAdj graph) (searchNodes graph start).length st.pq =
            (1 + maxAdj graph) ^ ((searchNodes graph start).length + 1 - r.path.length) +
              muQ (1 + maxAdj graph) (searchNodes graph start).length rest := by
          rw [muQ_perm hperm, muQ_cons]
        have hpos : 1 ≤ (1 + maxAdj graph) ^
            ((searchNodes graph start).length + 1 - r.path.length) :=
          Nat.one_le_pow _ _ (Nat.le_add_right 1 _)
        by_cases hcur : (r.cur == endLoc) = true
        · rw [if_pos hcur]
          by_cases hsig : st.sigs.contains r.path = true
          · rw [if_pos hsig]
            refine ih _ (StWF_step_dup hwf hpop) ?_
            show muQ _ _ rest ≤ fuel
            omega
          · rw [if_neg hsig]
            refine ih _ (StWF_step_acc hwf hpop hcur (Bool.eq_false_iff.mpr hsig)) ?_
            show muQ _ _ rest ≤ fuel
            omega
        · rw [if_neg hcur]
          refine ih _ (StWF_step_exp hwf hpop) ?_
          show muQ _ _ (rest ++ expand graph r) ≤ fuel
          have hlt := muQ_expand_lt rest (hwf.pqWF r (popMin_mem hpop))
          rw [← muQ_perm hperm] at hlt
          omega
    · rw [if_neg hlen]
      right
      exact Nat.le_of_not_lt hlen

/-! ### The final state of a query -/

/-- The state in which the search loop of `find_all_routes` ends. -/
def finalState (graph : Graph) (start endLoc : String) (m : Nat) : SState :=
  loopSearch graph endLoc m (fuelBound graph start) ⟨[⟨0, start, [start], [start]⟩], [], []⟩

theorem acceptedRoutes_def (graph : Graph) (start endLoc : String) (m : Nat) :
    acceptedRoutes graph start endLoc m =
      match lookupG graph start with
      | none => []
      | some _ => sortFound (finalState graph start endLoc m).found := rfl

theorem find_all_routes_def (graph : Graph) (start endLoc : String) (m : Nat) :
    find_all_routes graph start endLoc m =
      match lookupG graph start with
      | none => []
      | some _ => routeFilter (sortFound (finalState graph start endLoc m).found) := rfl

theorem routeFilter_nil : routeFilter [] = [] := rfl

/-- `find_all_routes` is exactly the post-filter of the accepted route set. -/
theorem find_all_routes_eq_filter (graph : Graph) (start endLoc : String) (m : Nat) :
    find_all_routes graph start endLoc m =
      routeFilter (acceptedRoutes graph start endLoc m) := by
  rw [find_all_routes_def, acceptedRoutes_def]
  cases lookupG graph start with
  | none => rw [routeFilter_nil]
  | some l => rfl

theorem finalState_StWF (graph : Graph) (start endLoc : String) (m : Nat) :
    StWF graph start endLoc (searchNodes graph start)
      (finalState graph start endLoc m) :=
  loopSearch_StWF _ _ (StWF_init graph start endLoc)

theorem muQ_init_le_fuelBound (graph : Graph) (start : String) :
    muQ (1 + maxAdj graph) (searchNodes graph start).length
      [⟨0, start, [start], [start]⟩] ≤ fuelBound graph start := by
  rw [muQ_cons, muQ_nil]
  have h1 : ((([start] : List String)).length) = 1 := rfl
  rw [h1]
  unfold fuelBound
  have hsn : (searchNodes graph start).length = ((start :: nodesOf graph).dedup).length := rfl
  rw [← hsn, Nat.add_sub_cancel, Nat.add_zero]
  exact Nat.pow_le_pow_right (Nat.le_add_right 1 _) (by omega)

/-- The loop of a query ends because the queue is empty or the budget is
reached — never because of fuel. -/
theorem finalState_done (graph : Graph) (start endLoc : String) (m : Nat) :
    (finalState graph start endLoc m).pq = [] ∨
      m ≤ (finalState graph start endLoc m).found.length :=
  loopSearch_done _ _ (StWF_init graph start endLoc) (muQ_init_le_fuelBound graph start)

/-- A returned route is one of the accepted routes of the final state. -/
theorem mem_find_all_routes {graph : Graph} {start endLoc : String} {m : Nat}
    {r : Nat × List String} (h : r ∈ find_all_routes graph start endLoc m) :
    ∃ l, lookupG graph start = some l ∧ r ∈ (finalState graph start endLoc m).found := by
  rw [find_all_routes_def] at h
  cases hlk : lookupG graph start with
  | none => rw [hlk] at h; simp at h
  | some l =>
    rw [hlk] at h
    refine ⟨l, rfl, ?_⟩
    have hsub := routeFilter_sublist (sortFound (finalState graph start endLoc m).found)
    have hmem : r ∈ sortFound (finalState graph start endLoc m).found := hsub.mem h
    exact (sortFound_perm _).mem_iff.mp hmem

/-- C3: the returned list is sorted ascending by total cost with no duplicate
path — proved for every graph, endpoints and bound. -/
theorem sorted_and_nodup_aux (graph : Graph) (start endLoc : String) (m : Nat) :
    (find_all_routes graph start endLoc m).Pairwise costLe ∧
      ((find_all_routes graph start endLoc m).map Prod.snd).Nodup := by
  rw [find_all_routes_def]
  cases hlk : lookupG graph start with
  | none => simp
  | some l =>
    have hsub := routeFilter_sublist (sortFound (finalState graph start endLoc m).found)
    constructor
    · exact (sortFound_pairwise _).sublist hsub
    · have hnd : ((finalState graph start endLoc m).found.map Prod.snd).Nodup :=
        (finalState_StWF graph start endLoc m).fdNodup
      have hnd2 : ((sortFound (finalState graph start endLoc m).found).map Prod.snd).Nodup :=
        (((sortFound_perm _).map Prod.snd).nodup_iff).mpr hnd
      exact hnd2.sublist (hsub.map Prod.snd)

theorem mem_of_getLast?Eq {α : Type} {l : List α} {a : α} (h : l.getLast? = some a) :
    a ∈ l := by
  obtain ⟨ys, rfl⟩ := List.getLast?_eq_some_iff.mp h
  simp

/-- An empty queue stops the loop immediately. -/
theorem loopSearch_empty_pq (graph : Graph) (endLoc : String) (m : Nat) :
    ∀ fuel st, st.pq = [] → loopSearch graph endLoc m fuel st = st := by
  intro fuel
  cases fuel with
  | zero => intro st h; rfl
  | succ fuel =>
    intro st h
    rw [loopSearch]
    by_cases hlen : st.found.length < m
    · rw [if_pos hlen, h]
      rfl
    · rw [if_neg hlen]

theorem fuelBound_pos (graph : Graph) (start : String) : 1 ≤ fuelBound graph start :=
  Nat.one_le_pow _ _ (Nat.lt_of_lt_of_le Nat.zero_lt_one (Nat.le_add_right 1 _))

/-- With `start = endLoc` and a known start, the search accepts the seed record
itself and stops: the final state holds exactly the zero-length route. -/
theorem finalState_same_endpoint {graph : Graph} {s : String} {m : Nat}
    (hm : 1 ≤ m) :
    finalState graph s s m = ⟨[], [(0, [s])], [[s]]⟩ := by
  unfold finalState
  obtain ⟨f, hf⟩ : ∃ f, fuelBound graph s = f + 1 :=
    ⟨fuelBound graph s - 1, (Nat.succ_pred_eq_of_pos (fuelBound_pos graph s)).symm⟩
  rw [hf, loopSearch]
  have hlen : ([] : List (Nat × List String)).length < m := hm
  rw [if_pos hlen]
  have hpop : popMin [⟨0, s, [s], [s]⟩] = some (⟨0, s, [s], [s]⟩, []) := rfl
  rw [hpop]
  dsimp only
  rw [if_pos (beq_self_eq_true s)]
  have hsig : ([] : List (List String)).contains [s] = false := rfl
  rw [if_neg (by rw [hsig]; exact Bool.false_ne_true)]
  exact loopSearch_empty_pq graph s m f _ rfl

/-- `find_all_routes` on equal known endpoints returns the single zero-length
route `[(0, [s])]`. -/
theorem find_all_routes_same_endpoint {graph : Graph} {s : String} {m : Nat}
    {l : List (String × Nat)} (hlk : lookupG graph s = some l) (hm : 1 ≤ m) :
    find_all_routes graph s s m = [(0, [s])] := by
  rw [find_all_routes_def, hlk]
  rw [finalState_same_endpoint hm]
  rfl

/-- A known key is among the graph's nodes. -/
theorem lookup_some_mem_nodes {graph : Graph} {k : String} {l : List (String × Nat)}
    (h : lookupG graph k = some l) : k ∈ nodesOf graph :=
  mem_nodesOf_key (lookupG_mem h)

/-- With an unknown source or an unknown destination, `find_all_routes`
returns the empty list — exactly the no-route outcome. -/
theorem find_all_routes_unknown_empty (graph : Graph) (s e : String) (m : Nat)
    (h : s ∉ nodesOf graph ∨ e ∉ nodesOf graph) :
    find_all_routes graph s e m = [] := by
  rw [find_all_routes_def]
  cases hlk : lookupG graph s with
  | none => rfl
  | some l =>
    have hs : s ∈ nodesOf graph := lookup_some_mem_nodes hlk
    have he : e ∉ nodesOf graph := by
      rcases h with h | h
      · exact absurd hs h
      · exact h
    have hfd : (finalState graph s e m).found = [] := by
      rw [List.eq_nil_iff_forall_not_mem]
      intro f hf
      obtain ⟨_, _, hlast, _, hsub, _⟩ := (finalState_StWF graph s e m).fdWF f hf
      have hmem : e ∈ f.2 := mem_of_getLast?Eq hlast
      have heS : e ∈ searchNodes graph s := hsub e hmem
      rcases List.mem_cons.mp (List.mem_dedup.mp heS) with rfl | hnodes
      · exact he hs
      · exact he hnodes
    rw [hfd]
    rfl

theorem pairsOf_mem {p : List String} {uv : String × String} (h : uv ∈ pairsOf p) :
    uv.1 ∈ p ∧ uv.2 ∈ p := by
  induction p with
  | nil => simp [pairsOf] at h
  | cons a t ih =>
    cases t with
    | nil => simp [pairsOf] at h
    | cons b t' =>
      rw [pairsOf] at h
      rcases List.mem_cons.mp h with rfl | h
      · exact ⟨List.mem_cons_self _ _, List.mem_cons_of_mem _ (List.mem_cons_self _ _)⟩
      · obtain ⟨h1, h2⟩ := ih h
        exact ⟨List.mem_cons_of_mem _ h1, List.mem_cons_of_mem _ h2⟩

/-- Every node of every route returned on the carpet-free graph lies among the
carpet-free graph's nodes. -/
theorem find_all_routes_nodes {graph : Graph} {s e : String} {m : Nat}
    {r : Nat × List String} (h : r ∈ find_all_routes graph s e m) :
    ∀ x ∈ r.2, x ∈ nodesOf graph := by
  obtain ⟨l, hlk, hfd⟩ := mem_find_all_routes h
  obtain ⟨_, _, _, _, hsub, _⟩ := (finalState_StWF graph s e m).fdWF r hfd
  intro x hx
  rcases List.mem_cons.mp (List.mem_dedup.mp (hsub x hx)) with rfl | hnodes
  · exact lookup_some_mem_nodes hlk
  · exact hnodes

/-! ### Cost accounting -/

theorem pathCost_cons_cons (graph : Graph) (a b : String) (rest : List String) :
    pathCost graph (a :: b :: rest) = edgeCost graph a b + pathCost graph (b :: rest) := rfl

theorem find?_eq_of_nodup {l : List (String × Nat)} {v : String} {c : Nat}
    (hnd : (l.map Prod.fst).Nodup) (hv : (v, c) ∈ l) :
    l.find? (fun nc => nc.1 == v) = some (v, c) := by
  induction l with
  | nil => simp at hv
  | cons nc t ih =>
    rw [List.map_cons, List.nodup_cons] at hnd
    obtain ⟨hni, hnd'⟩ := hnd
    rw [List.find?]
    by_cases hb : (nc.1 == v) = true
    · rw [hb]
      have hv1 : nc.1 = v := beq_iff_eq.mp hb
      rcases List.mem_cons.mp hv with rfl | hv'
      · rfl
      · exfalso
        apply hni
        rw [hv1]
        exact List.mem_map.mpr ⟨(v, c), hv', rfl⟩
    · rw [Bool.eq_false_iff.mpr hb]
      rcases List.mem_cons.mp hv with rfl | hv'
      · exact absurd (beq_self_eq_true v) hb
      · exact ih hnd' hv'

theorem edgeCost_of_mem {graph : Graph} {u v : String} {l : List (String × Nat)} {c : Nat}
    (hnb : nodupNbrs graph) (hlk : lookupG graph u = some l) (hv : (v, c) ∈ l) :
    edgeCost graph u v = c := by
  have hnd : (l.map Prod.fst).Nodup := by
    have := hnb (u, l) (lookupG_mem hlk)
    simpa using this
  unfold edgeCost
  rw [hlk]
  dsimp only
  rw [find?_eq_of_nodup hnd hv]

theorem pathCost_append_single {graph : Graph} {p : List String} {u v : String}
    (hne : p ≠ []) (hlast : p.getLast? = some u) :
    pathCost graph (p ++ [v]) = pathCost graph p + edgeCost graph u v := by
  induction p with
  | nil => exact absurd rfl hne
  | cons a t ih =>
    cases t with
    | nil =>
      simp only [List.getLast?_singleton, Option.some.injEq] at hlast
      subst hlast
      show pathCost graph (a :: v :: []) = pathCost graph [a] + edgeCost graph a v
      rw [pathCost_cons_cons]
      show edgeCost graph a v + 0 = 0 + edgeCost graph a v
      omega
    | cons b t' =>
      rw [List.getLast?_cons_cons] at hlast
      show pathCost graph (a :: ((b :: t') ++ [v])) = _
      have hbv : (b :: t') ++ [v] = b :: (t' ++ [v]) := rfl
      rw [hbv, pathCost_cons_cons, pathCost_cons_cons]
      have := ih (by simp) hlast
      rw [List.cons_append] at this
      rw [this]
      omega

/-- Cost invariant: every queue record's and every accepted route's stored
cost is the edge-cost sum of its path. -/
def costOK (graph : Graph) (st : SState) : Prop :=
  (∀ r ∈ st.pq, r.cost = pathCost graph r.path) ∧
    (∀ f ∈ st.found, f.1 = pathCost graph f.2)

theorem finalState_costOK {graph : Graph} (hnb : nodupNbrs graph)
    (start endLoc : String) (m : Nat) :
    costOK graph (finalState graph start endLoc m) := by
  have h := loopSearch_inv graph endLoc m
    (fun st => StWF graph start endLoc (searchNodes graph start) st ∧ costOK graph st)
    ?_ ?_ ?_ (fuelBound graph start) ⟨[⟨0, start, [start], [start]⟩], [], []⟩
    ⟨StWF_init graph start endLoc, ?_, by simp⟩
  · exact h.2
  · -- accept
    intro st r rest hP hlen hpop hcur hsig
    refine ⟨StWF_step_acc hP.1 hpop hcur hsig, ?_, ?_⟩
    · intro r' hr'
      exact hP.2.1 r' (((popMin_spec hpop).1.mem_iff).mpr (List.mem_cons_of_mem _ hr'))
    · intro f hf
      rcases List.mem_append.mp hf with hf | hf
      · exact hP.2.2 f hf
      · rw [List.mem_singleton] at hf
        subst hf
        exact hP.2.1 r (popMin_mem hpop)
  · -- duplicate
    intro st r rest hP hlen hpop hcur hsig
    refine ⟨StWF_step_dup hP.1 hpop, ?_, hP.2.2⟩
    intro r' hr'
    exact hP.2.1 r' (((popMin_spec hpop).1.mem_iff).mpr (List.mem_cons_of_mem _ hr'))
  · -- expand
    intro st r rest hP hlen hpop hcur
    refine ⟨StWF_step_exp hP.1 hpop, ?_, hP.2.2⟩
    intro r' hr'
    rcases List.mem_append.mp hr' with hr' | hr'
    · exact hP.2.1 r' (((popMin_spec hpop).1.mem_iff).mpr (List.mem_cons_of_mem _ hr'))
    · obtain ⟨hne, _, hlast, _, _, _, _⟩ := hP.1.pqWF r (popMin_mem hpop)
      have hrc : r.cost = pathCost graph r.path := hP.2.1 r (popMin_mem hpop)
      unfold expand at hr'
      cases hlk : lookupG graph r.cur with
      | none => rw [hlk] at hr'; simp at hr'
      | some nbrs =>
        rw [hlk] at hr'
        dsimp only at hr'
        obtain ⟨nc, hncf, rfl⟩ := List.mem_map.mp hr'
        obtain ⟨hncm, _⟩ := List.mem_filter.mp hncf
        obtain ⟨nv, ncost⟩ := nc
        show r.cost + ncost = pathCost graph (r.path ++ [nv])
        rw [pathCost_append_single hne hlast, hrc, edgeCost_of_mem hnb hlk hncm]
  · -- initial cost invariant
    intro r hr
    rw [List.mem_singleton] at hr
    subst hr
    rfl

/-! ### Formatting preserves cost -/

theorem pathCost_eq_pairs (graph : Graph) :
    ∀ p, pathCost graph p = ((pairsOf p).map (fun ab => edgeCost graph ab.1 ab.2)).sum := by
  intro p
  induction p with
  | nil => rfl
  | cons a t ih =>
    cases t with
    | nil => rfl
    | cons b t' =>
      rw [pathCost_cons_cons]
      show _ = ((((a, b) :: pairsOf (b :: t')).map _).sum)
      rw [List.map_cons, List.sum_cons]
      rw [ih]

theorem formatGo_cost_sum (graph : Graph)
    (hskip : ∀ a b, isSkipPair a b = true → edgeCost graph a b = 0) :
    ∀ pl, ((formatGo graph false pl).map (fun leg => leg.cost)).sum =
      (pl.map (fun ab => edgeCost graph ab.1 ab.2)).sum := by
  intro pl
  induction pl with
  | nil => rfl
  | cons ab rest ih =>
    obtain ⟨a, b⟩ := ab
    rw [formatGo]
    by_cases hs : isSkipPair a b = true
    · rw [if_pos hs]
      rw [List.map_cons, List.sum_cons, hskip a b hs, ih]
      omega
    · rw [if_neg hs]
      rw [List.map_cons, List.map_cons, List.sum_cons, List.sum_cons, ih]

/-- Cost conservation of the formatter: the per-leg costs of `format_route`
sum to the path's edge-cost total, provided the skipped hub transitions all
cost zero. -/
theorem format_route_cost_sum {graph : Graph}
    (hskip : ∀ a b, isSkipPair a b = true → edgeCost graph a b = 0) (p : List String) :
    ((format_route p graph).map (fun leg => leg.cost)).sum = pathCost graph p := by
  unfold format_route
  by_cases hl : p.length < 2
  · rw [if_pos hl]
    match p, hl with
    | [], _ => rfl
    | [a], _ => rfl
  · rw [if_neg hl]
    rw [formatGo_cost_sum graph hskip, ← pathCost_eq_pairs]

/-- The four collapsible transitions of `isSkipPair`, unfolded. -/
theorem isSkipPair_cases {a b : String} (h : isSkipPair a b = true) :
    (a = "Edron" ∧ b = "Edron Carpet") ∨ (a = "Edron Carpet" ∧ b = "Edron") ∨
      (a = "Darashia" ∧ b = "Darashia Carpet") ∨
      (a = "Darashia Carpet" ∧ b = "Darashia") := by
  unfold isSkipPair at h
  simp only [Bool.or_eq_true, Bool.and_eq_true, beq_iff_eq] at h
  tauto

/-- In both graphs the collapsible transitions have edge cost 0 (with carpets
disabled the pairs are not edges at all and the default cost 0 applies). -/
theorem skip_edgeCost_zero (carpets : Bool) {a b : String} (h : isSkipPair a b = true) :
    edgeCost (build_graph carpets) a b = 0 := by
  rcases isSkipPair_cases h with ⟨rfl, rfl⟩ | ⟨rfl, rfl⟩ | ⟨rfl, rfl⟩ | ⟨rfl, rfl⟩ <;>
    cases carpets <;> decide

/-- Both graphs `build_graph` can produce list each neighbor at most once per
adjacency list. -/
theorem nodupNbrs_build (carpets : Bool) : nodupNbrs (build_graph carpets) := by
  cases carpets <;> (unfold nodupNbrs; decide)

/-! ### A combined induction principle carrying well-formedness and costs -/

theorem costOK_step_acc {graph : Graph} {st : SState} {r : PqEntry}
    {rest : List PqEntry} (h : costOK graph st)
    (hpop : popMin st.pq = some (r, rest)) (sigs' : List (List String)) :
    costOK graph ⟨rest, st.found ++ [(r.cost, r.path)], sigs'⟩ := by
  refine ⟨?_, ?_⟩
  · intro r' hr'
    exact h.1 r' (((popMin_spec hpop).1.mem_iff).mpr (List.mem_cons_of_mem _ hr'))
  · intro f hf
    rcases List.mem_append.mp hf with hf | hf
    · exact h.2 f hf
    · rw [List.mem_singleton] at hf
      subst hf
      exact h.1 r (popMin_mem hpop)

theorem costOK_step_dup {graph : Graph} {st : SState} {r : PqEntry}
    {rest : List PqEntry} (h : costOK graph st)
    (hpop : popMin st.pq = some (r, rest)) (sigs' : List (List String)) :
    costOK graph ⟨rest, st.found, sigs'⟩ := by
  refine ⟨?_, h.2⟩
  intro r' hr'
  exact h.1 r' (((popMin_spec hpop).1.mem_iff).mpr (List.mem_cons_of_mem _ hr'))

theorem costOK_step_exp {graph : Graph} {start : String} {st : SState} {r : PqEntry}
    {rest : List PqEntry} (hnb : nodupNbrs graph)
    (hr : entryWF graph start (searchNodes graph start) r) (h : costOK graph st)
    (hpop : popMin st.pq = some (r, rest)) (sigs' : List (List String)) :
    costOK graph ⟨rest ++ expand graph r, st.found, sigs'⟩ := by
  obtain ⟨hne, _, hlast, _, _, _, _⟩ := hr
  refine ⟨?_, h.2⟩
  intro r' hr'
  rcases List.mem_append.mp hr' with hr' | hr'
  · exact h.1 r' (((popMin_spec hpop).1.mem_iff).mpr (List.mem_cons_of_mem _ hr'))
  · have hrc : r.cost = pathCost graph r.path := h.1 r (popMin_mem hpop)
    unfold expand at hr'
    cases hlk : lookupG graph r.cur with
    | none => rw [hlk] at hr'; simp at hr'
    | some nbrs =>
      rw [hlk] at hr'
      dsimp only at hr'
      obtain ⟨nc, hncf, rfl⟩ := List.mem_map.mp hr'
      obtain ⟨hncm, _⟩ := List.mem_filter.mp hncf
      obtain ⟨nv, ncost⟩ := nc
      show r.cost + ncost = pathCost graph (r.path ++ [nv])
      rw [pathCost_append_single hne hlast, hrc, edgeCost_of_mem hnb hlk hncm]

/-- Preservation principle with the well-formedness and cost invariants
available as extra hypotheses in every step. -/
theorem loopSearch_inv2 (graph : Graph) (start endLoc : String) (m : Nat)
    (hnb : nodupNbrs graph) (P : SState → Prop)
    (hacc : ∀ st r rest, StWF graph start endLoc (searchNodes graph start) st →
      costOK graph st → P st → st.found.length < m →
      popMin st.pq = some (r, rest) → (r.cur == endLoc) = true →
      st.sigs.contains r.path = false →
      P ⟨rest, st.found ++ [(r.cost, r.path)], r.path :: st.sigs⟩)
    (hdup : ∀ st r rest, StWF graph start endLoc (searchNodes graph start) st →
      costOK graph st → P st → st.found.length < m →
      popMin st.pq = some (r, rest) → (r.cur == endLoc) = true →
      st.sigs.contains r.path = true → P ⟨rest, st.found, st.sigs⟩)
    (hexp : ∀ st r rest, StWF graph start endLoc (searchNodes graph start) st →
      costOK graph st → P st → st.found.length < m →
      popMin st.pq = some (r, rest) → (r.cur == endLoc) = false →
      P ⟨rest ++ expand graph r, st.found, st.sigs⟩) :
    ∀ fuel st, StWF graph start endLoc (searchNodes graph start) st →
      costOK graph st → P st →
      P (loopSearch graph endLoc m fuel st) := by
  intro fuel st hwf hc hp
  have h := loopSearch_inv graph endLoc m
    (fun st => (StWF graph start endLoc (searchNodes graph start) st ∧ costOK graph st) ∧ P st)
    ?_ ?_ ?_ fuel st ⟨⟨hwf, hc⟩, hp⟩
  · exact h.2
  · intro st r rest hP hlen hpop hcur hsig
    exact ⟨⟨StWF_step_acc hP.1.1 hpop hcur hsig, costOK_step_acc hP.1.2 hpop _⟩,
      hacc st r rest hP.1.1 hP.1.2 hP.2 hlen hpop hcur hsig⟩
  · intro st r rest hP hlen hpop hcur hsig
    exact ⟨⟨StWF_step_dup hP.1.1 hpop, costOK_step_dup hP.1.2 hpop _⟩,
      hdup st r rest hP.1.1 hP.1.2 hP.2 hlen hpop hcur hsig⟩
  · intro st r rest hP hlen hpop hcur
    exact ⟨⟨StWF_step_exp hP.1.1 hpop,
      costOK_step_exp hnb (hP.1.1.pqWF r (popMin_mem hpop)) hP.1.2 hpop _⟩,
      hexp st r rest hP.1.1 hP.1.2 hP.2 hlen hpop hcur⟩

/-! ### Optimality of the accepted set -/

theorem pathCost_le_append (graph : Graph) :
    ∀ p rest, pathCost graph p ≤ pathCost graph (p ++ rest) := by
  intro p
  induction p with
  | nil => intro rest; exact Nat.zero_le _
  | cons a t ih =>
    intro rest
    cases t with
    | nil => exact Nat.zero_le _
    | cons b t' =>
      show pathCost graph (a :: b :: t') ≤ pathCost graph ((a :: b :: t') ++ rest)
      rw [List.cons_append, List.cons_append, pathCost_cons_cons, pathCost_cons_cons]
      have := ih rest
      rw [List.cons_append] at this
      exact Nat.add_le_add_left this _

theorem chainB_middle_edge {graph : Graph} :
    ∀ (p : List String) (u b : String) (r2 : List String),
      chainB graph (p ++ b :: r2) = true → p.getLast? = some u →
      edgeB graph u b = true := by
  intro p
  induction p with
  | nil => intro u b r2 hch hlast; simp at hlast
  | cons a t ih =>
    intro u b r2 hch hlast
    cases t with
    | nil =>
      simp only [List.getLast?_singleton, Option.some.injEq] at hlast
      subst hlast
      rw [List.cons_append, List.nil_append, chainB_cons_cons, Bool.and_eq_true] at hch
      exact hch.1
    | cons a2 t' =>
      rw [List.getLast?_cons_cons] at hlast
      rw [List.cons_append, List.cons_append, chainB_cons_cons, Bool.and_eq_true] at hch
      have := ih u b r2 ?_ hlast
      · exact this
      · rw [List.cons_append]
        exact hch.2

/-- Core optimality lemma: for every simple path `q` from `start` to `endLoc`,
the final state of the search holds an accepted route whose total cost is at
most the cost of `q`.  The proof tracks an invariant: either some queue record
carries a prefix of `q` (and every accepted cost is bounded by `q`'s cost), or
some accepted route already beats `q`. -/
theorem exists_found_le {graph : Graph} {start endLoc : String} {m : Nat}
    {q : List String} (hnb : nodupNbrs graph)
    (hq : SimplePathFrom graph start endLoc q) (hm : 1 ≤ m) :
    ∃ f ∈ (finalState graph start endLoc m).found, f.1 ≤ pathCost graph q := by
  obtain ⟨hqne, hqhead, hqlast, hqnd, hqch⟩ := hq
  have hfull : ∀ r : PqEntry, entryWF graph start (searchNodes graph start) r →
      (r.cur == endLoc) = true → ∀ rest', r.path ++ rest' = q → r.path = q := by
    intro r hrwf hcur rest' hsplit
    obtain ⟨hne, _, hlast, _, _, _, _⟩ := hrwf
    cases rest' with
    | nil => rw [← hsplit, List.append_nil]
    | cons x xs =>
      exfalso
      have hqlast2 : q.getLast? = (x :: xs).getLast? := by
        rw [← hsplit]
        exact List.getLast?_append_of_ne_nil r.path (by simp)
      have hql : (x :: xs).getLast? = some endLoc := by rw [← hqlast2]; exact hqlast
      have hmem2 : endLoc ∈ x :: xs := mem_of_getLast?Eq hql
      have hmem1 : endLoc ∈ r.path := by
        have hce : r.cur = endLoc := beq_iff_eq.mp hcur
        rw [← hce]
        exact mem_of_getLast?Eq hlast
      have hnd2 : (r.path ++ x :: xs).Nodup := by rw [hsplit]; exact hqnd
      exact (List.disjoint_of_nodup_append hnd2) hmem1 hmem2
  have hinv := loopSearch_inv2 graph start endLoc m hnb
    (fun st =>
      ((∃ r ∈ st.pq, ∃ rest', r.path ++ rest' = q ∧ r.path ≠ []) ∧
          (∀ f ∈ st.found, f.1 ≤ pathCost graph q)) ∨
        (∃ f ∈ st.found, f.1 ≤ pathCost graph q))
    ?_ ?_ ?_ (fuelBound graph start) ⟨[⟨0, start, [start], [start]⟩], [], []⟩
    (StWF_init graph start endLoc)
    ⟨by
      intro r hr
      rw [List.mem_singleton] at hr
      subst hr
      rfl, by simp⟩ ?_
  · have hfin : loopSearch graph endLoc m (fuelBound graph start)
        (⟨[⟨0, start, [start], [start]⟩], [], []⟩ : SState) =
          finalState graph start endLoc m := rfl
    rw [hfin] at hinv
    rcases hinv with ⟨⟨r, hrpq, _⟩, hall⟩ | ⟨f, hf, hfle⟩
    · rcases finalState_done graph start endLoc m with hemp | hbud
      · rw [hemp] at hrpq
        simp at hrpq
      · have hpos : 0 < (finalState graph start endLoc m).found.length :=
          Nat.lt_of_lt_of_le (Nat.lt_of_lt_of_le Nat.zero_lt_one hm) hbud
        cases hfd : (finalState graph start endLoc m).found with
        | nil => rw [hfd] at hpos; simp at hpos
        | cons f0 t =>
          have hmem : f0 ∈ (finalState graph start endLoc m).found := by
            rw [hfd]
            exact List.mem_cons_self _ _
          exact ⟨f0, List.mem_cons_self _ _, hall f0 hmem⟩
    · exact ⟨f, hf, hfle⟩
  · -- accept step
    intro st r rest hwf hc hp hlen hpop hcur hsig
    rcases hp with ⟨⟨rp, hrp, rest', hsplit, hrpne⟩, hall⟩ | ⟨f, hf, hfle⟩
    · rcases (popMin_mem_iff hpop).mp hrp with heq | hrest
      · subst heq
        have hpq : rp.path = q := hfull rp (hwf.pqWF rp (popMin_mem hpop)) hcur rest' hsplit
        refine Or.inr ⟨(rp.cost, rp.path),
          List.mem_append_right _ (List.mem_singleton.mpr rfl), ?_⟩
        show rp.cost ≤ pathCost graph q
        rw [← hpq]
        exact Nat.le_of_eq (hc.1 rp (popMin_mem hpop))
      · refine Or.inl ⟨⟨rp, hrest, rest', hsplit, hrpne⟩, ?_⟩
        intro f hf
        rcases List.mem_append.mp hf with hf | hf
        · exact hall f hf
        · rw [List.mem_singleton] at hf
          subst hf
          show r.cost ≤ pathCost graph q
          calc r.cost ≤ rp.cost := (popMin_spec hpop).2 rp hrp
            _ = pathCost graph rp.path := hc.1 rp hrp
            _ ≤ pathCost graph (rp.path ++ rest') := pathCost_le_append graph _ _
            _ = pathCost graph q := by rw [hsplit]
    · exact Or.inr ⟨f, List.mem_append_left _ hf, hfle⟩
  · -- duplicate-signature step
    intro st r rest hwf hc hp hlen hpop hcur hsig
    rcases hp with ⟨⟨rp, hrp, rest', hsplit, hrpne⟩, hall⟩ | ⟨f, hf, hfle⟩
    · rcases (popMin_mem_iff hpop).mp hrp with heq | hrest
      · subst heq
        have hpq : rp.path = q := hfull rp (hwf.pqWF rp (popMin_mem hpop)) hcur rest' hsplit
        have hqsig : q ∈ st.sigs := by
          rw [← hpq]
          exact containsIffMem.mp hsig
        have hqfd : q ∈ st.found.map Prod.snd := (hwf.sigsEq q).mp hqsig
        obtain ⟨f, hf, hfq⟩ := List.mem_map.mp hqfd
        refine Or.inr ⟨f, hf, ?_⟩
        rw [← hfq]
        exact Nat.le_of_eq (hc.2 f hf)
      · exact Or.inl ⟨⟨rp, hrest, rest', hsplit, hrpne⟩, hall⟩
    · exact Or.inr ⟨f, hf, hfle⟩
  · -- expand step
    intro st r rest hwf hc hp hlen hpop hcur
    rcases hp with ⟨⟨rp, hrp, rest', hsplit, hrpne⟩, hall⟩ | ⟨f, hf, hfle⟩
    · rcases (popMin_mem_iff hpop).mp hrp with heq | hrest
      · subst heq
        obtain ⟨hne, _, hlast, _, _, _, hvis⟩ := hwf.pqWF rp (popMin_mem hpop)
        cases rest' with
        | nil =>
          exfalso
          have hpq : rp.path = q := by rw [← hsplit, List.append_nil]
          have : rp.path.getLast? = some endLoc := by rw [hpq]; exact hqlast
          rw [hlast] at this
          have hce : rp.cur = endLoc := by
            have := Option.some.injEq _ _ ▸ this
            simpa using this
          rw [hce, beq_self_eq_true] at hcur
          exact Bool.true_eq_false.mp hcur
        | cons x xs =>
          have hch2 : chainB graph (rp.path ++ x :: xs) = true := by
            rw [hsplit]
            exact hqch
          have hedge : edgeB graph rp.cur x = true :=
            chainB_middle_edge rp.path rp.cur x xs hch2 hlast
          obtain ⟨l, c', hlk, hxl⟩ := edgeB_iff.mp hedge
          have hnd2 : (rp.path ++ x :: xs).Nodup := by rw [hsplit]; exact hqnd
          have hxnot : x ∉ rp.path := fun hx =>
            (List.disjoint_of_nodup_append hnd2) hx (List.mem_cons_self _ _)
          have hcf : rp.visited.contains x = false := by
            apply Bool.eq_false_iff.mpr
            intro hct
            apply hxnot
            have hxv : x ∈ rp.visited := containsIffMem.mp hct
            rw [hvis] at hxv
            exact List.mem_reverse.mp hxv
          have hmemexp : (⟨rp.cost + c', x, rp.path ++ [x], x :: rp.visited⟩ : PqEntry) ∈
              expand graph rp := by
            unfold expand
            rw [hlk]
            dsimp only
            apply List.mem_map.mpr
            refine ⟨(x, c'), List.mem_filter.mpr ⟨hxl, ?_⟩, rfl⟩
            rw [hcf]
            rfl
          refine Or.inl ⟨⟨⟨rp.cost + c', x, rp.path ++ [x], x :: rp.visited⟩,
            List.mem_append_right _ hmemexp, xs, ?_, by simp⟩, hall⟩
          show (rp.path ++ [x]) ++ xs = q
          rw [List.append_assoc]
          exact hsplit
      · exact Or.inl ⟨⟨rp, List.mem_append_left _ hrest, rest', hsplit, hrpne⟩, hall⟩
    · exact Or.inr ⟨f, hf, hfle⟩
  · -- the invariant holds initially
    obtain ⟨t, hqt⟩ : ∃ t, q = start :: t := by
      cases q with
      | nil => simp at hqhead
      | cons a t => exact ⟨t, by simpa using hqhead⟩
    refine Or.inl ⟨⟨⟨0, start, [start], [start]⟩, List.mem_singleton.mpr rfl, t, ?_, by simp⟩,
      by simp⟩
    rw [hqt]
    rfl

/-! ### The direct-edge analysis -/

/-- With distinct endpoints the first loop iteration expands the seed. -/
theorem finalState_step1 {graph : Graph} {s e : String} {m : Nat}
    (hse : (s == e) = false) (hm : 1 ≤ m) :
    finalState graph s e m =
      loopSearch graph e m (fuelBound graph s - 1)
        ⟨expand graph ⟨0, s, [s], [s]⟩, [], []⟩ := by
  unfold finalState
  obtain ⟨f, hf⟩ : ∃ f, fuelBound graph s = f + 1 :=
    ⟨fuelBound graph s - 1, (Nat.succ_pred_eq_of_pos (fuelBound_pos graph s)).symm⟩
  rw [hf, loopSearch]
  have hlen : ([] : List (Nat × List String)).length < m := hm
  rw [if_pos hlen]
  have hpop : popMin [⟨0, s, [s], [s]⟩] = some (⟨0, s, [s], [s]⟩, []) := rfl
  rw [hpop]
  dsimp only
  rw [if_neg (by rw [hse]; exact Bool.false_ne_true)]
  have hf1 : f = fuelBound graph s - 1 := by omega
  rw [hf1]
  rfl

/-- With a direct edge `(e, c)` out of `s` present, the final state either
accepted the two-node route itself, or stopped on budget with every accepted
route costing at most `c`. -/
theorem direct_edge_found {graph : Graph} {s e : String} {m : Nat}
    {l : List (String × Nat)} {c : Nat} (hnb : nodupNbrs graph)
    (hlk : lookupG graph s = some l) (hec : (e, c) ∈ l) (hse : s ≠ e) (hm : 1 ≤ m) :
    (c, [s, e]) ∈ (finalState graph s e m).found ∨
      ((∀ f ∈ (finalState graph s e m).found, f.1 ≤ c) ∧
        m ≤ (finalState graph s e m).found.length) := by
  have hseb : (s == e) = false := by
    apply Bool.eq_false_iff.mpr
    intro h
    exact hse (beq_iff_eq.mp h)
  have hR : (⟨c, e, [s, e], [e, s]⟩ : PqEntry) ∈ expand graph ⟨0, s, [s], [s]⟩ := by
    unfold expand
    rw [hlk]
    dsimp only
    apply List.mem_map.mpr
    refine ⟨(e, c), List.mem_filter.mpr ⟨hec, ?_⟩, ?_⟩
    · have hcf : ([s] : List String).contains e = false := by
        apply Bool.eq_false_iff.mpr
        intro hct
        have := containsIffMem.mp hct
        rw [List.mem_singleton] at this
        exact hse this.symm
      rw [hcf]
      rfl
    · show (⟨0 + c, e, [s] ++ [e], e :: [s]⟩ : PqEntry) = ⟨c, e, [s, e], [e, s]⟩
      simp
  have hpop0 : popMin [(⟨0, s, [s], [s]⟩ : PqEntry)] = some (⟨0, s, [s], [s]⟩, []) := rfl
  have hwf1 : StWF graph s e (searchNodes graph s) ⟨expand graph ⟨0, s, [s], [s]⟩, [], []⟩ :=
    StWF_step_exp (StWF_init graph s e) hpop0
  have hc1 : costOK graph ⟨expand graph ⟨0, s, [s], [s]⟩, [], []⟩ := by
    have h0 : costOK graph ⟨[(⟨0, s, [s], [s]⟩ : PqEntry)], [], []⟩ := by
      refine ⟨?_, by simp⟩
      intro r hr
      rw [List.mem_singleton] at hr
      subst hr
      rfl
    exact costOK_step_exp hnb ((StWF_init graph s e).pqWF _ (List.mem_singleton.mpr rfl))
      h0 hpop0 []
  have hinv := loopSearch_inv2 graph s e m hnb
    (fun st =>
      ((⟨c, e, [s, e], [e, s]⟩ : PqEntry) ∈ st.pq ∧ ∀ f ∈ st.found, f.1 ≤ c) ∨
        (c, [s, e]) ∈ st.found)
    ?_ ?_ ?_ (fuelBound graph s - 1) ⟨expand graph ⟨0, s, [s], [s]⟩, [], []⟩
    hwf1 hc1 (Or.inl ⟨hR, by simp⟩)
  · rw [← finalState_step1 hseb hm] at hinv
    rcases hinv with ⟨hRpq, hall⟩ | hmem
    · rcases finalState_done graph s e m with hemp | hbud
      · rw [hemp] at hRpq
        simp at hRpq
      · exact Or.inr ⟨hall, hbud⟩
    · exact Or.inl hmem
  · -- accept step
    intro st r rest hwf hc hp hlen hpop hcur hsig
    rcases hp with ⟨hRpq, hall⟩ | hmem
    · rcases (popMin_mem_iff hpop).mp hRpq with heq | hrest
      · refine Or.inr ?_
        rw [← heq]
        exact List.mem_append_right _ (List.mem_singleton.mpr rfl)
      · refine Or.inl ⟨hrest, ?_⟩
        intro f hf
        rcases List.mem_append.mp hf with hf | hf
        · exact hall f hf
        · rw [List.mem_singleton] at hf
          subst hf
          exact (popMin_spec hpop).2 _ hRpq
    · exact Or.inr (List.mem_append_left _ hmem)
  · -- duplicate-signature step
    intro st r rest hwf hc hp hlen hpop hcur hsig
    rcases hp with ⟨hRpq, hall⟩ | hmem
    · rcases (popMin_mem_iff hpop).mp hRpq with heq | hrest
      · have hpath : r.path = [s, e] := by rw [← heq]
        have hqsig : [s, e] ∈ st.sigs := by
          rw [← hpath]
          exact containsIffMem.mp hsig
        have hqfd : [s, e] ∈ st.found.map Prod.snd := (hwf.sigsEq _).mp hqsig
        obtain ⟨f, hf, hfq⟩ := List.mem_map.mp hqfd
        refine Or.inr ?_
        have hfc : f.1 = c := by
          rw [hc.2 f hf, hfq]
          show edgeCost graph s e + pathCost graph [e] = c
          rw [edgeCost_of_mem hnb hlk hec]
          rfl
        have : f = (c, [s, e]) := by
          cases f
          simp_all
        rw [← this]
        exact hf
      · exact Or.inl ⟨hrest, hall⟩
    · exact Or.inr hmem
  · -- expand step
    intro st r rest hwf hc hp hlen hpop hcur
    rcases hp with ⟨hRpq, hall⟩ | hmem
    · rcases (popMin_mem_iff hpop).mp hRpq with heq | hrest
      · exfalso
        have : r.cur = e := by rw [← heq]
        rw [this, beq_self_eq_true] at hcur
        exact Bool.true_eq_false.mp hcur
      · exact Or.inl ⟨List.mem_append_left _ hrest, hall⟩
    · exact Or.inr hmem

/-! ### No direct route exists between a hub and its own sub-hub -/

/-- The hub cluster of a location: the locations reachable from it using only
collapsible transitions. -/
def partnerSet (a : String) : List String :=
  if a = "Edron" ∨ a = "Edron Carpet" then ["Edron", "Edron Carpet"]
  else if a = "Darashia" ∨ a = "Darashia Carpet" then ["Darashia", "Darashia Carpet"]
  else [a]

theorem self_mem_partnerSet (a : String) : a ∈ partnerSet a := by
  unfold partnerSet
  split_ifs with h1 h2
  · rcases h1 with rfl | rfl <;> simp
  · rcases h2 with rfl | rfl <;> simp
  · simp

theorem skip_partner {a b : String} (h : isSkipPair a b = true) :
    b ∈ partnerSet a ∧ partnerSet b = partnerSet a := by
  rcases isSkipPair_cases h with ⟨rfl, rfl⟩ | ⟨rfl, rfl⟩ | ⟨rfl, rfl⟩ | ⟨rfl, rfl⟩ <;>
    exact ⟨by decide, by decide⟩

/-- A path of real-step count zero stays inside one hub cluster. -/
theorem realSteps_zero_partner :
    ∀ (t : List String) (a : String), realSteps (a :: t) = 0 →
      ∀ x ∈ a :: t, x ∈ partnerSet a := by
  intro t
  induction t with
  | nil =>
    intro a h x hx
    rw [List.mem_singleton] at hx
    subst hx
    exact self_mem_partnerSet x
  | cons b t' ih =>
    intro a h x hx
    rw [realSteps] at h
    have hsk : isSkipPair a b = true := by
      by_cases hs : isSkipPair a b = true
      · exact hs
      · rw [if_neg hs] at h
        omega
    rw [if_pos hsk, Nat.zero_add] at h
    obtain ⟨hbp, hpp⟩ := skip_partner hsk
    rcases List.mem_cons.mp hx with rfl | hx
    · exact self_mem_partnerSet x
    · have hxb := ih b h x hx
      rw [hpp] at hxb
      exact hxb

/-- A path with exactly one real step decomposes into a zero-step part, one
non-collapsible edge, and a zero-step part. -/
theorem realSteps_one_split :
    ∀ (p : List String), realSteps p = 1 →
      ∃ p₁ u v p₂, p = p₁ ++ u :: v :: p₂ ∧ realSteps (p₁ ++ [u]) = 0 ∧
        isSkipPair u v = false ∧ realSteps (v :: p₂) = 0 := by
  intro p
  induction p with
  | nil => intro h; simp [realSteps] at h
  | cons a t ih =>
    intro h
    cases t with
    | nil => simp [realSteps] at h
    | cons b t' =>
      rw [realSteps] at h
      by_cases hsk : isSkipPair a b = true
      · rw [if_pos hsk, Nat.zero_add] at h
        obtain ⟨p₁, u, v, p₂, hsplit, hpre, hnsk, hpost⟩ := ih h
        refine ⟨a :: p₁, u, v, p₂, ?_, ?_, hnsk, hpost⟩
        · rw [List.cons_append, ← hsplit]
        · cases p₁ with
          | nil =>
            have hub : u = b := by
              rw [List.nil_append] at hsplit
              exact (List.cons.injEq _ _ _ _ ▸ hsplit).1.symm
            rw [hub]
            show realSteps (a :: b :: []) = 0
            rw [realSteps, if_pos hsk, Nat.zero_add]
            rfl
          | cons w p₁' =>
            have hwb : w = b := by
              rw [List.cons_append] at hsplit
              exact (List.cons.injEq _ _ _ _ ▸ hsplit).1.symm
            subst hwb
            show realSteps (a :: ((w :: p₁') ++ [u])) = 0
            rw [List.cons_append, realSteps, if_pos hsk, Nat.zero_add]
            rw [List.cons_append] at hpre
            exact hpre
      · rw [if_neg hsk] at h
        have hz : realSteps (b :: t') = 0 := by omega
        exact ⟨[], a, b, t', rfl, rfl, Bool.eq_false_iff.mpr hsk, hz⟩

theorem head?_append_left {α : Type} (l₁ l₂ : List α) (h : l₁ ≠ []) :
    (l₁ ++ l₂).head? = l₁.head? := by
  cases l₁ with
  | nil => exact absurd rfl h
  | cons a t => rfl

/-- On the carpet graph, the real edge of a would-be direct route between the
two halves of a collapsible pair can never reach the other half. -/
theorem skip_pair_next {s e v : String} {c' : Nat} {l : List (String × Nat)}
    (hsp : isSkipPair s e = true)
    (hl : lookupG (build_graph true) s = some l) (hv : (v, c') ∈ l)
    (hnsk : isSkipPair s v = false) : e ∉ partnerSet v := by
  rcases isSkipPair_cases hsp with ⟨rfl, rfl⟩ | ⟨rfl, rfl⟩ | ⟨rfl, rfl⟩ | ⟨rfl, rfl⟩
  · have hconc : lookupG (build_graph true) "Edron" =
        some [("Ab'Dendriel", 70), ("Carlin", 110), ("Venore", 40), ("Edron Carpet", 0)] := by
      decide
    rw [hconc] at hl
    have hle : l = [("Ab'Dendriel", 70), ("Carlin", 110), ("Venore", 40), ("Edron Carpet", 0)] := by
      simpa using hl.symm
    subst hle
    simp only [List.mem_cons, List.not_mem_nil, or_false, Prod.mk.injEq] at hv
    rcases hv with ⟨rfl, rfl⟩ | ⟨rfl, rfl⟩ | ⟨rfl, rfl⟩ | ⟨rfl, rfl⟩
    · decide
    · decide
    · decide
    · exact absurd hnsk (by decide)
  · have hconc : lookupG (build_graph true) "Edron Carpet" =
        some [("Femor Hills Carpet", 60), ("Darashia Carpet", 40), ("Edron", 0)] := by
      decide
    rw [hconc] at hl
    have hle : l = [("Femor Hills Carpet", 60), ("Darashia Carpet", 40), ("Edron", 0)] := by
      simpa using hl.symm
    subst hle
    simp only [List.mem_cons, List.not_mem_nil, or_false, Prod.mk.injEq] at hv
    rcases hv with ⟨rfl, rfl⟩ | ⟨rfl, rfl⟩ | ⟨rfl, rfl⟩
    · decide
    · decide
    · exact absurd hnsk (by decide)
  · have hconc : lookupG (build_graph true) "Darashia" =
        some [("Venore", 60), ("Darashia Carpet", 0)] := by
      decide
    rw [hconc] at hl
    have hle : l = [("Venore", 60), ("Darashia Carpet", 0)] := by
      simpa using hl.symm
    subst hle
    simp only [List.mem_cons, List.not_mem_nil, or_false, Prod.mk.injEq] at hv
    rcases hv with ⟨rfl, rfl⟩ | ⟨rfl, rfl⟩
    · decide
    · exact absurd hnsk (by decide)
  · have hconc : lookupG (build_graph true) "Darashia Carpet" =
        some [("Edron Carpet", 40), ("Femor Hills Carpet", 80), ("Darashia", 0)] := by
      decide
    rw [hconc] at hl
    have hle : l = [("Edron Carpet", 40), ("Femor Hills Carpet", 80), ("Darashia", 0)] := by
      simpa using hl.symm
    subst hle
    simp only [List.mem_cons, List.not_mem_nil, or_false, Prod.mk.injEq] at hv
    rcases hv with ⟨rfl, rfl⟩ | ⟨rfl, rfl⟩ | ⟨rfl, rfl⟩
    · decide
    · decide
    · exact absurd hnsk (by decide)

/-- On the carpet graph there is no simple one-real-step path between the two
halves of a collapsible pair. -/
theorem no_direct_route_skip {s e : String} (hsp : isSkipPair s e = true)
    {p : List String} (hhead : p.head? = some s) (hlast : p.getLast? = some e)
    (hnd : p.Nodup) (hch : chainB (build_graph true) p = true) :
    realSteps p ≠ 1 := by
  intro h1
  obtain ⟨p₁, u, v, p₂, hsplit, hpre, hnsk, hpost⟩ := realSteps_one_split p h1
  have hassoc : p = (p₁ ++ [u]) ++ v :: p₂ := by
    rw [hsplit, List.append_assoc]
    rfl
  -- the zero-step prefix starts at s
  have hheadpre : (p₁ ++ [u]).head? = some s := by
    rw [hassoc] at hhead
    rw [← head?_append_left (p₁ ++ [u]) (v :: p₂) (by simp)]
    exact hhead
  obtain ⟨prest, hprest⟩ : ∃ prest, p₁ ++ [u] = s :: prest := by
    cases hpu : p₁ ++ [u] with
    | nil => simp at hpu
    | cons a t =>
      rw [hpu] at hheadpre
      have : a = s := by simpa using hheadpre
      exact ⟨t, by rw [this]⟩
  have humem : u ∈ partnerSet s := by
    have hall := realSteps_zero_partner prest s (by rw [← hprest]; exact hpre)
    apply hall
    rw [← hprest]
    exact List.mem_append_right _ (List.mem_singleton.mpr rfl)
  -- the destination lies in the cluster of v
  have hein : e ∈ partnerSet v := by
    have hlast2 : (v :: p₂).getLast? = some e := by
      rw [hassoc] at hlast
      rw [← List.getLast?_append_of_ne_nil (p₁ ++ [u]) (by simp)]
      exact hlast
    exact realSteps_zero_partner p₂ v hpost e (mem_of_getLast?Eq hlast2)
  -- the real edge exists in the graph
  have hedge : edgeB (build_graph true) u v = true := by
    apply chainB_middle_edge (p₁ ++ [u]) u v p₂
    · rw [← hassoc]
      exact hch
    · exact List.getLast?_concat p₁
  obtain ⟨l, c', hlk, hvl⟩ := edgeB_iff.mp hedge
  -- u is either s itself or the destination e
  have hu : u = s ∨ u = e := by
    rcases isSkipPair_cases hsp with ⟨rfl, rfl⟩ | ⟨rfl, rfl⟩ | ⟨rfl, rfl⟩ | ⟨rfl, rfl⟩
    · have hps : partnerSet "Edron" = ["Edron", "Edron Carpet"] := by decide
      rw [hps] at humem
      simp only [List.mem_cons, List.mem_singleton, List.not_mem_nil, or_false] at humem
      tauto
    · have hps : partnerSet "Edron Carpet" = ["Edron", "Edron Carpet"] := by decide
      rw [hps] at humem
      simp only [List.mem_cons, List.mem_singleton, List.not_mem_nil, or_false] at humem
      tauto
    · have hps : partnerSet "Darashia" = ["Darashia", "Darashia Carpet"] := by decide
      rw [hps] at humem
      simp only [List.mem_cons, List.mem_singleton, List.not_mem_nil, or_false] at humem
      tauto
    · have hps : partnerSet "Darashia Carpet" = ["Darashia", "Darashia Carpet"] := by decide
      rw [hps] at humem
      simp only [List.mem_cons, List.mem_singleton, List.not_mem_nil, or_false] at humem
      tauto
  rcases hu with rfl | rfl
  · -- real edge leaves s: its target's cluster cannot contain e
    exact skip_pair_next hsp hlk hvl hnsk hein
  · -- u = e: e occurs both in the prefix and at the end, contradicting Nodup
    have hnd2 : ((p₁ ++ [u]) ++ v :: p₂).Nodup := by
      rw [← hassoc]
      exact hnd
    have hmem1 : u ∈ p₁ ++ [u] := List.mem_append_right _ (List.mem_singleton.mpr rfl)
    have hmem2 : u ∈ v :: p₂ := by
      have hlast2 : (v :: p₂).getLast? = some u := by
        rw [hassoc] at hlast
        rw [← List.getLast?_append_of_ne_nil (p₁ ++ [u]) (by simp)]
        exact hlast
      exact mem_of_getLast?Eq hlast2
    exact (List.disjoint_of_nodup_append hnd2) hmem1 hmem2

/-! ### Case analysis of the post-filter -/

theorem routeFilter_ne_nil {l : List (Nat × List String)} (h : l ≠ []) :
    routeFilter l ≠ [] := by
  unfold routeFilter
  by_cases hd : (l.filter (fun r => realSteps r.2 == 1)).isEmpty
  · rw [if_pos hd]
    by_cases hlen : l.length ≤ 2
    · rw [if_pos hlen]
      exact h
    · rw [if_neg hlen]
      cases l with
      | nil => exact absurd rfl h
      | cons cheapest rest => simp
  · rw [if_neg hd]
    have hne : l.filter (fun r => realSteps r.2 == 1) ≠ [] := by
      intro hnil
      rw [hnil] at hd
      exact hd rfl
    intro htake
    rw [List.take_eq_nil_iff] at htake
    rcases htake with h2 | h2
    · exact absurd h2 (by omega)
    · exact hne h2

/-- If no accepted route is direct and the accepted list is nonempty, its
cheapest element is returned. -/
theorem routeFilter_head_mem {l t : List (Nat × List String)} {h0 : Nat × List String}
    (hd : (l.filter (fun r => realSteps r.2 == 1)).isEmpty) (hl : l = h0 :: t) :
    h0 ∈ routeFilter l := by
  unfold routeFilter
  rw [if_pos hd]
  by_cases hlen : l.length ≤ 2
  · rw [if_pos hlen, hl]
    exact List.mem_cons_self _ _
  · rw [if_neg hlen]
    subst hl
    cases hf : t.find? (fun r => usesCarpet r.2 != usesCarpet h0.2) with
    | none => simp [hf]
    | some r => simp [hf]

/-- If some accepted route is direct, the head of the (sorted) direct sublist
is returned. -/
theorem routeFilter_direct_mem {l dt : List (Nat × List String)} {d : Nat × List String}
    (hd : l.filter (fun r => realSteps r.2 == 1) = d :: dt) :
    d ∈ routeFilter l := by
  unfold routeFilter
  by_cases hie : (l.filter (fun r => realSteps r.2 == 1)).isEmpty
  · exfalso
    simp [hd] at hie
  · rw [if_neg hie, hd, List.take_succ_cons]
    exact List.mem_cons_self _ _

/-- Full behavioural case split of the post-filter: with a direct candidate
present only direct routes (at most two) come back; without one, up to two
accepted routes come back, and when more than two were accepted the result is
the cheapest plus at most one candidate of the other carpet category. -/
theorem routeFilter_cases (l : List (Nat × List String)) :
    ((∃ r ∈ l, realSteps r.2 = 1) →
      routeFilter l ≠ [] ∧ (routeFilter l).length ≤ 2 ∧
        ∀ r ∈ routeFilter l, realSteps r.2 = 1) ∧
      ((∀ r ∈ l, realSteps r.2 ≠ 1) →
        (l.length ≤ 2 → routeFilter l = l) ∧
          (2 < l.length → ∃ ch t, l = ch :: t ∧
            (routeFilter l = [ch] ∨
              ∃ r ∈ t, routeFilter l = [ch, r] ∧ usesCarpet r.2 ≠ usesCarpet ch.2))) := by
  by_cases hd : (l.filter (fun r => realSteps r.2 == 1)).isEmpty
  · have hfe : l.filter (fun r => realSteps r.2 == 1) = [] := List.isEmpty_iff.mp hd
    have hno : ∀ x ∈ l, ¬ (realSteps x.2 == 1) = true := List.filter_eq_nil_iff.mp hfe
    constructor
    · rintro ⟨r, hr, hr1⟩
      exact absurd (beq_iff_eq.mpr hr1) (hno r hr)
    · intro hnod
      constructor
      · intro hlen
        unfold routeFilter
        rw [if_pos hd, if_pos hlen]
      · intro hlen
        cases l with
        | nil => simp at hlen
        | cons ch t =>
          refine ⟨ch, t, rfl, ?_⟩
          unfold routeFilter
          rw [if_pos hd, if_neg (by omega)]
          cases hf : t.find? (fun r => usesCarpet r.2 != usesCarpet ch.2) with
          | none =>
            left
            simp [hf]
          | some r =>
            right
            have hrm : r ∈ t := List.mem_of_find?_eq_some hf
            have hpr : (usesCarpet r.2 != usesCarpet ch.2) = true := by
              have h0 := List.find?_some hf
              exact h0
            exact ⟨r, hrm, by simp [hf], bne_iff_ne.mp hpr⟩
  · have hne : l.filter (fun r => realSteps r.2 == 1) ≠ [] := fun hnil => by
      rw [hnil] at hd
      exact hd rfl
    constructor
    · intro _
      refine ⟨routeFilter_ne_nil ?_, ?_, ?_⟩
      · intro hnil
        rw [hnil] at hne
        simp at hne
      · unfold routeFilter
        rw [if_neg hd]
        rw [List.length_take]
        exact Nat.min_le_left _ _
      · intro r hr
        unfold routeFilter at hr
        rw [if_neg hd] at hr
        have hrf : r ∈ l.filter (fun r => realSteps r.2 == 1) :=
          (List.take_sublist _ _).subset hr
        exact beq_iff_eq.mp (List.mem_filter.mp hrf).2
    · intro hnod
      exfalso
      cases hfl : l.filter (fun r => realSteps r.2 == 1) with
      | nil => exact hne hfl
      | cons d dt =>
        have hdl : d ∈ l.filter (fun r => realSteps r.2 == 1) := by
          rw [hfl]
          exact List.mem_cons_self _ _
        obtain ⟨hdm, hd1⟩ := List.mem_filter.mp hdl
        exact hnod d hdm (beq_iff_eq.mp hd1)

/-! ### Characterising `dijkstra` -/

theorem finalState_found_le (graph : Graph) (start endLoc : String) (m : Nat) :
    (finalState graph start endLoc m).found.length ≤ m := by
  have h := loopSearch_inv graph endLoc m (fun st => st.found.length ≤ m)
    ?_ ?_ ?_ (fuelBound graph start) ⟨[⟨0, start, [start], [start]⟩], [], []⟩ (by simp)
  · exact h
  · intro st r rest hP hlen hpop hcur hsig
    simp only [List.length_append, List.length_cons, List.length_nil]
    omega
  · intro st r rest hP hlen hpop hcur hsig
    exact hP
  · intro st r rest hP hlen hpop hcur
    exact hP

theorem routeFilter_singleton (x : Nat × List String) : routeFilter [x] = [x] := by
  unfold routeFilter
  by_cases hie : ([x].filter (fun r => realSteps r.2 == 1)).isEmpty
  · rw [if_pos hie, if_pos (by simp)]
  · rw [if_neg hie]
    by_cases hp : (realSteps x.2 == 1) = true
    · rw [show [x].filter (fun r => realSteps r.2 == 1) = [x] from by simp [hp]]
      rfl
    · exfalso
      have hnil : [x].filter (fun r => realSteps r.2 == 1) = [] := by simp [hp]
      simp [hnil] at hie

theorem routeWF_simple {graph : Graph} {s e : String} {S : List String}
    {f : Nat × List String} (h : routeWF graph s e S f) :
    SimplePathFrom graph s e f.2 :=
  ⟨h.1, h.2.1, h.2.2.1, h.2.2.2.1, h.2.2.2.2.2⟩

theorem length_le_one_eq {α : Type} {l : List α} {a b : α} (hl : l.length ≤ 1)
    (ha : a ∈ l) (hb : b ∈ l) : a = b := by
  cases l with
  | nil => simp at ha
  | cons x t =>
    cases t with
    | nil =>
      rw [List.mem_singleton] at ha hb
      rw [ha, hb]
    | cons y t' => simp at hl

/-- A simple path between distinct endpoints leaves through a real edge, so
its source is a key of the graph. -/
theorem simple_path_lookup {graph : Graph} {s e : String} {q : List String}
    (hse : s ≠ e) (hq : SimplePathFrom graph s e q) :
    ∃ l, lookupG graph s = some l := by
  obtain ⟨hne, hhead, hlast, hnd, hch⟩ := hq
  cases q with
  | nil => exact absurd rfl hne
  | cons a t =>
    have has : a = s := by simpa using hhead
    subst has
    cases t with
    | nil =>
      exfalso
      apply hse
      simpa using hlast
    | cons b t' =>
      rw [chainB_cons_cons, Bool.and_eq_true] at hch
      obtain ⟨l, c, hlk, _⟩ := edgeB_iff.mp hch.1
      exact ⟨l, hlk⟩

/-- When `dijkstra` answers, the answer is a minimum-cost simple path together
with its cost. -/
theorem dijkstra_some_spec {graph : Graph} (hnb : nodupNbrs graph) {s e : String}
    {cp : Nat × List String} (h : dijkstra graph s e = some cp) :
    SimplePathFrom graph s e cp.2 ∧ cp.1 = pathCost graph cp.2 ∧
      ∀ q, SimplePathFrom graph s e q → cp.1 ≤ pathCost graph q := by
  unfold dijkstra at h
  cases hout : find_all_routes graph s e 1 with
  | nil => rw [hout] at h; simp at h
  | cons r rs =>
    rw [hout] at h
    have hrc : r = cp := by simpa using h
    subst hrc
    have hrmem : r ∈ find_all_routes graph s e 1 := by
      rw [hout]
      exact List.mem_cons_self _ _
    obtain ⟨l, hlk, hfd⟩ := mem_find_all_routes hrmem
    refine ⟨routeWF_simple ((finalState_StWF graph s e 1).fdWF r hfd), ?_, ?_⟩
    · exact (finalState_costOK hnb s e 1).2 r hfd
    · intro q hq
      obtain ⟨f, hf, hfle⟩ := exists_found_le hnb hq (Nat.le_refl 1)
      have hfr : f = r :=
        length_le_one_eq (finalState_found_le graph s e 1) hf hfd
      rw [← hfr]
      exact hfle

/-- When `dijkstra` answers `none` for distinct endpoints, no simple path
exists at all. -/
theorem dijkstra_none_spec {graph : Graph} (hnb : nodupNbrs graph) {s e : String}
    (hse : s ≠ e) (h : dijkstra graph s e = none) :
    ∀ q, ¬ SimplePathFrom graph s e q := by
  intro q hq
  obtain ⟨f, hf, _⟩ := exists_found_le hnb hq (Nat.le_refl 1)
  obtain ⟨l, hlk⟩ := simple_path_lookup hse hq
  have hout : find_all_routes graph s e 1 =
      routeFilter (sortFound (finalState graph s e 1).found) := by
    rw [find_all_routes_def, hlk]
  have hfne : (finalState graph s e 1).found ≠ [] := fun hnil => by
    rw [hnil] at hf
    simp at hf
  have hsne : sortFound (finalState graph s e 1).found ≠ [] := fun hnil => by
    have := (sortFound_perm (finalState graph s e 1).found).symm.length_eq
    rw [hnil] at this
    simp at this
    exact hfne this
  have hone : find_all_routes graph s e 1 ≠ [] := by
    rw [hout]
    exact routeFilter_ne_nil hsne
  unfold dijkstra at h
  cases hfar : find_all_routes graph s e 1 with
  | nil => exact hone hfar
  | cons r rs =>
    rw [hfar] at h
    simp at h

/-! ### No returned route is worse than a direct connection -/

theorem no_worse_than_direct {carpets : Bool} {s e : String} {c m : Nat}
    (hse : s ≠ e) (hec : (e, c) ∈ adjOf (build_graph carpets) s) (hm : 1 ≤ m) :
    ∃ r ∈ find_all_routes (build_graph carpets) s e m, r.1 ≤ c := by
  have hnb : nodupNbrs (build_graph carpets) := nodupNbrs_build carpets
  obtain ⟨l, hlk, hecl⟩ : ∃ l, lookupG (build_graph carpets) s = some l ∧ (e, c) ∈ l := by
    unfold adjOf at hec
    cases hlk : lookupG (build_graph carpets) s with
    | none => rw [hlk] at hec; simp at hec
    | some l => rw [hlk] at hec; exact ⟨l, rfl, hec⟩
  have hout : find_all_routes (build_graph carpets) s e m =
      routeFilter (sortFound (finalState (build_graph carpets) s e m).found) := by
    rw [find_all_routes_def, hlk]
  have hedge : edgeCost (build_graph carpets) s e = c := edgeCost_of_mem hnb hlk hecl
  rcases direct_edge_found hnb hlk hecl hse hm with hmem | ⟨hall, hbud⟩
  · -- the two-node route itself was accepted
    have hmemsf : (c, [s, e]) ∈ sortFound (finalState (build_graph carpets) s e m).found :=
      (sortFound_perm _).mem_iff.mpr hmem
    by_cases hsk : isSkipPair s e = true
    · -- a collapsible pair: the edge costs 0 and no direct route can exist
      have hc0 : c = 0 := by
        rw [← hedge]
        exact skip_edgeCost_zero carpets hsk
      cases carpets with
      | false =>
        -- collapsible pairs are not edges of the carpet-free graph
        exfalso
        have hemem : e ∈ l.map Prod.fst := List.mem_map.mpr ⟨(e, c), hecl, rfl⟩
        rcases isSkipPair_cases hsk with ⟨rfl, rfl⟩ | ⟨rfl, rfl⟩ | ⟨rfl, rfl⟩ | ⟨rfl, rfl⟩
        · have hconc : lookupG (build_graph false) "Edron" =
              some [("Ab'Dendriel", 70), ("Carlin", 110), ("Venore", 40)] := by decide
          rw [hconc] at hlk
          have hle : l = [("Ab'Dendriel", 70), ("Carlin", 110), ("Venore", 40)] := by
            simpa using hlk.symm
          subst hle
          simp at hemem
        · have hconc : lookupG (build_graph false) "Edron Carpet" = none := by decide
          rw [hconc] at hlk
          simp at hlk
        · have hconc : lookupG (build_graph false) "Darashia" = some [("Venore", 60)] := by
            decide
          rw [hconc] at hlk
          have hle : l = [("Venore", 60)] := by simpa using hlk.symm
          subst hle
          simp at hemem
        · have hconc : lookupG (build_graph false) "Darashia Carpet" = none := by decide
          rw [hconc] at hlk
          simp at hlk
      | true =>
        -- no accepted route is direct, so the cheapest accepted route returns
        have hdempty : ((sortFound (finalState (build_graph true) s e m).found).filter
            (fun r => realSteps r.2 == 1)).isEmpty := by
          rw [List.isEmpty_iff, List.filter_eq_nil_iff]
          intro f hfsf
          have hffd : f ∈ (finalState (build_graph true) s e m).found :=
            (sortFound_perm _).mem_iff.mp hfsf
          obtain ⟨_, hhead, hlast, hnd, _, hch⟩ :=
            (finalState_StWF (build_graph true) s e m).fdWF f hffd
          have hnr : realSteps f.2 ≠ 1 := no_direct_route_skip hsk hhead hlast hnd hch
          intro hb
          exact hnr (beq_iff_eq.mp hb)
        cases hsf : sortFound (finalState (build_graph true) s e m).found with
        | nil =>
          exfalso
          rw [hsf] at hmemsf
          simp at hmemsf
        | cons h0 t0 =>
          refine ⟨h0, ?_, ?_⟩
          · rw [hout]
            exact routeFilter_head_mem (by rw [hsf] at hdempty ⊢; exact hdempty) hsf
          · have hsort := sortFound_pairwise (finalState (build_graph true) s e m).found
            rw [hsf] at hsort
            have := sorted_head_min hsort (List.Perm.refl _) (c, [s, e]) (by
              rw [← hsf]
              exact hmemsf)
            omega
    · -- an ordinary direct edge: the direct filter keeps the two-node route
      have hr1 : realSteps [s, e] = 1 := by
        show (if isSkipPair s e then 0 else 1) + realSteps [e] = 1
        rw [if_neg hsk]
        rfl
      have hmemfil : (c, [s, e]) ∈ (sortFound
          (finalState (build_graph carpets) s e m).found).filter
          (fun r => realSteps r.2 == 1) :=
        List.mem_filter.mpr ⟨hmemsf, by
          rw [show realSteps ([s, e] : List String) = 1 from hr1]
          rfl⟩
      cases hfil : (sortFound (finalState (build_graph carpets) s e m).found).filter
          (fun r => realSteps r.2 == 1) with
      | nil =>
        exfalso
        rw [hfil] at hmemfil
        simp at hmemfil
      | cons d dt =>
        refine ⟨d, ?_, ?_⟩
        · rw [hout]
          exact routeFilter_direct_mem hfil
        · have hsortfil : (d :: dt).Pairwise costLe := by
            rw [← hfil]
            exact (sortFound_pairwise _).sublist (List.filter_sublist _)
          have := sorted_head_min hsortfil (List.Perm.refl _) (c, [s, e]) (by
            rw [← hfil]
            exact hmemfil)
          omega
  · -- budget reached with every accepted cost at most c
    have hfne : (finalState (build_graph carpets) s e m).found ≠ [] := by
      intro hnil
      rw [hnil] at hbud
      simp at hbud
      omega
    have hsne : sortFound (finalState (build_graph carpets) s e m).found ≠ [] := by
      intro hnil
      apply hfne
      cases hfd2 : (finalState (build_graph carpets) s e m).found with
      | nil => rfl
      | cons f0 t0 =>
        exfalso
        have hmm : f0 ∈ sortFound (finalState (build_graph carpets) s e m).found :=
          (sortFound_perm _).mem_iff.mpr (by
            rw [hfd2]
            exact List.mem_cons_self _ _)
        rw [hnil] at hmm
        simp at hmm
    cases hrf : routeFilter (sortFound (finalState (build_graph carpets) s e m).found) with
    | nil => exact absurd hrf (routeFilter_ne_nil hsne)
    | cons r0 t0 =>
      refine ⟨r0, ?_, ?_⟩
      · rw [hout, hrf]
        exact List.mem_cons_self _ _
      · apply hall
        apply (sortFound_perm _).mem_iff.mp
        apply (routeFilter_sublist _).subset
        rw [hrf]
        exact List.mem_cons_self _ _

/-! ## The claims -/

/-- C1: for every graph built by `build_graph`, every pair of distinct
locations joined by a direct single-edge connection of cost `c`, and every
positive `max_routes`, the list returned by `find_all_routes` contains at
least one route whose total cost is at most `c`. -/
theorem C1_no_worse_than_direct (carpets : Bool) (s e : String) (c m : Nat)
    (hse : s ≠ e) (hec : (e, c) ∈ adjOf (build_graph carpets) s) (hm : 1 ≤ m) :
    ∃ r ∈ find_all_routes (build_graph carpets) s e m, r.1 ≤ c :=
  no_worse_than_direct hse hec hm

/-- Witness for C1 at the direct Thais→Venore boat connection (cost 170). -/
theorem C1_witness :
    ("Thais" ≠ "Venore") ∧ (("Venore", 170) ∈ adjOf (build_graph false) "Thais") ∧
      1 ≤ 5 ∧ ∃ r ∈ find_all_routes (build_graph false) "Thais" "Venore" 5, r.1 ≤ 170 :=
  ⟨by decide, by decide, by decide,
    C1_no_worse_than_direct false "Thais" "Venore" 170 5 (by decide) (by decide) (by decide)⟩

/-- C2 counterexample: on the carpet-free graph, Darashia→Thais with
`max_routes = 2` accepts exactly two candidates, neither direct and both of
the same (non-carpet) category, and returns both — contradicting "never two
routes of the same category beyond the cheapest". -/
theorem C2_counterexample :
    find_all_routes (build_graph false) "Darashia" "Thais" 2 =
      [(230, ["Darashia", "Venore", "Thais"]),
        (280, ["Darashia", "Venore", "Ab'Dendriel", "Thais"])] ∧
      (∀ r ∈ find_all_routes (build_graph false) "Darashia" "Thais" 2, realSteps r.2 ≠ 1) ∧
      usesCarpet ["Darashia", "Venore", "Thais"] =
        usesCarpet ["Darashia", "Venore", "Ab'Dendriel", "Thais"] :=
  ⟨by decide, by decide, by decide⟩

/-- C2 (amended): if some accepted candidate is direct, only direct routes
come back, at most two.  If no accepted candidate is direct, then when more
than two candidates were accepted the result is the cheapest plus at most one
route of the other carpet category; when at most two were accepted, all of
them are returned, even if they share a category. -/
theorem C2_amended_filter (graph : Graph) (s e : String) (m : Nat) :
    ((∃ r ∈ acceptedRoutes graph s e m, realSteps r.2 = 1) →
      find_all_routes graph s e m ≠ [] ∧ (find_all_routes graph s e m).length ≤ 2 ∧
        ∀ r ∈ find_all_routes graph s e m, realSteps r.2 = 1) ∧
      ((∀ r ∈ acceptedRoutes graph s e m, realSteps r.2 ≠ 1) →
        ((acceptedRoutes graph s e m).length ≤ 2 →
          find_all_routes graph s e m = acceptedRoutes graph s e m) ∧
          (2 < (acceptedRoutes graph s e m).length →
            ∃ ch t, acceptedRoutes graph s e m = ch :: t ∧
              (find_all_routes graph s e m = [ch] ∨
                ∃ r ∈ t, find_all_routes graph s e m = [ch, r] ∧
                  usesCarpet r.2 ≠ usesCarpet ch.2))) := by
  rw [find_all_routes_eq_filter]
  exact routeFilter_cases (acceptedRoutes graph s e m)

/-- Witness for (amended) C2: the Darashia→Thais query with two accepted
non-direct candidates returns them both unchanged. -/
theorem C2_witness :
    (∀ r ∈ acceptedRoutes (build_graph false) "Darashia" "Thais" 2, realSteps r.2 ≠ 1) ∧
      find_all_routes (build_graph false) "Darashia" "Thais" 2 =
        acceptedRoutes (build_graph false) "Darashia" "Thais" 2 :=
  ⟨by decide,
    ((C2_amended_filter (build_graph false) "Darashia" "Thais" 2).2 (by decide)).1 (by decide)⟩

/-- C3: for every graph, source, destination and bound, the returned list is
sorted ascending by total cost (`costLe`) and contains no two entries with
the same path. -/
theorem C3_sorted_nodup (graph : Graph) (start endLoc : String) (m : Nat) :
    (find_all_routes graph start endLoc m).Pairwise costLe ∧
      ((find_all_routes graph start endLoc m).map Prod.snd).Nodup :=
  sorted_and_nodup_aux graph start endLoc m

/-- C4: every path in every route returned by `find_all_routes` is simple: no
location occurs twice (internally, every queue record carries a duplicate-free
path whose element set equals its `visited` set — `entryWF`). -/
theorem C4_simple_paths (graph : Graph) (start endLoc : String) (m : Nat)
    (r : Nat × List String) (h : r ∈ find_all_routes graph start endLoc m) :
    r.2.Nodup := by
  obtain ⟨l, hlk, hfd⟩ := mem_find_all_routes h
  exact ((finalState_StWF graph start endLoc m).fdWF r hfd).2.2.2.1

/-- Witness for C4 at the Darashia→Venore query. -/
theorem C4_witness :
    (60, ["Darashia", "Venore"]) ∈ find_all_routes (build_graph false) "Darashia" "Venore" 5 ∧
      (["Darashia", "Venore"] : List String).Nodup :=
  ⟨by decide,
    C4_simple_paths (build_graph false) "Darashia" "Venore" 5 (60, ["Darashia", "Venore"])
      (by decide)⟩

/-- C5 counterexample: a query from an unknown location returns the empty
route list — exactly the outcome of a disconnected pair — rather than any
distinct `UnknownLocation` error (no error channel exists in the function's
type). -/
theorem C5_counterexample :
    find_all_routes (build_graph true) "Atlantis" "Thais" 10 = [] := by decide

/-- C5 (amended): when either endpoint is not among the nodes of the built
graph, `find_all_routes` returns the empty list, the same outcome as
"no route"; no `UnknownLocation` error is surfaced. -/
theorem C5_unknown_empty (carpets : Bool) (s e : String) (m : Nat)
    (h : s ∉ nodesOf (build_graph carpets) ∨ e ∉ nodesOf (build_graph carpets)) :
    find_all_routes (build_graph carpets) s e m = [] :=
  find_all_routes_unknown_empty (build_graph carpets) s e m h

/-- Witness for (amended) C5 at an unknown source. -/
theorem C5_witness :
    ("Atlantis" ∉ nodesOf (build_graph true) ∨ "Thais" ∉ nodesOf (build_graph true)) ∧
      find_all_routes (build_graph true) "Atlantis" "Thais" 10 = [] :=
  ⟨Or.inl (by decide), C5_unknown_empty true "Atlantis" "Thais" 10 (Or.inl (by decide))⟩

/-- C6 counterexample: a same-endpoint query returns the zero-length
single-node route `[(0, ["Thais"])]` — not an error, and not an empty
result. -/
theorem C6_counterexample :
    find_all_routes (build_graph false) "Thais" "Thais" 5 = [(0, ["Thais"])] := by decide

/-- C6 (amended): for any known location, `find_all_routes` with equal
endpoints returns exactly the zero-length route `[(0, [s])]`; only the page
code (`main`) pre-checks equality and shows a distinct warning instead of
querying. -/
theorem C6_same_endpoint (graph : Graph) (s : String) (m : Nat)
    (l : List (String × Nat)) (hlk : lookupG graph s = some l) (hm : 1 ≤ m) :
    find_all_routes graph s s m = [(0, [s])] :=
  find_all_routes_same_endpoint hlk hm

/-- Witness for (amended) C6 at Thais. -/
theorem C6_witness :
    lookupG (build_graph false) "Thais" =
        some [("Ab'Dendriel", 130), ("Carlin", 110), ("Venore", 170)] ∧
      1 ≤ 5 ∧ find_all_routes (build_graph false) "Thais" "Thais" 5 = [(0, ["Thais"])] :=
  ⟨by decide, by decide,
    C6_same_endpoint (build_graph false) "Thais" 5
      [("Ab'Dendriel", 130), ("Carlin", 110), ("Venore", 170)] (by decide) (by decide)⟩

/-- C7: with the optional carpet category disabled (`build_graph false`), no
returned route contains a carpet location, and no consecutive pair of a
returned route's path is a carpet connection. -/
theorem C7_category_gating (s e : String) (m : Nat) (r : Nat × List String)
    (h : r ∈ find_all_routes (build_graph false) s e m) :
    (∀ x ∈ r.2, strContains x "Carpet" = false) ∧
      (∀ uv ∈ pairsOf r.2, ∀ cc, (uv, cc) ∉ CARPET_ROUTES) := by
  have hnodes := find_all_routes_nodes h
  have hcf : ∀ x ∈ nodesOf (build_graph false), strContains x "Carpet" = false := by decide
  constructor
  · intro x hx
    exact hcf x (hnodes x hx)
  · intro uv huv cc hmem
    have h1 : strContains uv.1 "Carpet" = false := hcf uv.1 (hnodes uv.1 (pairsOf_mem huv).1)
    have h2 : ∀ ent ∈ CARPET_ROUTES, strContains ent.1.1 "Carpet" = true := by decide
    have h3 : strContains uv.1 "Carpet" = true := h2 (uv, cc) hmem
    rw [h1] at h3
    exact Bool.false_ne_true h3

/-- Witness for C7 at the Senja→Carlin free-return query. -/
theorem C7_witness :
    (0, ["Senja", "Carlin"]) ∈ find_all_routes (build_graph false) "Senja" "Carlin" 3 ∧
      ∀ x ∈ (["Senja", "Carlin"] : List String), strContains x "Carpet" = false :=
  ⟨by decide, (C7_category_gating "Senja" "Carlin" 3 (0, ["Senja", "Carlin"]) (by decide)).1⟩

/-- C8 counterexample: formatting the route `[Edron, Edron Carpet,
Darashia Carpet]` does produce exactly one leg, but that leg starts at the
sub-hub `"Edron Carpet"`, not at the hub `"Edron"` as the claim states. -/
theorem C8_counterexample :
    format_route ["Edron", "Edron Carpet", "Darashia Carpet"] (build_graph true) =
      [{ «from» := "Edron Carpet", «to» := "Darashia Carpet", cost := 40,
          transport := "🪂 Carpet" }] ∧
      ("Edron Carpet" : String) ≠ "Edron" :=
  ⟨by decide, by decide⟩

/-- C8 (amended): for every collapsible pair `(H, H')` of the fixed set and
every onward location `Z ≠ H` adjacent to the sub-hub `H'`, formatting
`[H, H', Z]` produces exactly one leg, and that leg is `H' → Z` (it starts at
the sub-hub, not at the hub). -/
theorem C8_collapse_leg (H Hp Z : String) (c : Nat)
    (hpair : (H, Hp) ∈ [("Edron", "Edron Carpet"), ("Darashia", "Darashia Carpet")])
    (hadj : (Z, c) ∈ adjOf (build_graph true) Hp) (hne : Z ≠ H) :
    format_route [H, Hp, Z] (build_graph true) =
      [{ «from» := Hp, «to» := Z, cost := c, transport := "🪂 Carpet" }] := by
  simp only [List.mem_cons, List.not_mem_nil, or_false, Prod.mk.injEq] at hpair
  rcases hpair with ⟨rfl, rfl⟩ | ⟨rfl, rfl⟩
  · have hconc : adjOf (build_graph true) "Edron Carpet" =
        [("Femor Hills Carpet", 60), ("Darashia Carpet", 40), ("Edron", 0)] := by decide
    rw [hconc] at hadj
    simp only [List.mem_cons, List.not_mem_nil, or_false, Prod.mk.injEq] at hadj
    rcases hadj with ⟨rfl, rfl⟩ | ⟨rfl, rfl⟩ | ⟨rfl, rfl⟩
    · decide
    · decide
    · exact absurd rfl hne
  · have hconc : adjOf (build_graph true) "Darashia Carpet" =
        [("Edron Carpet", 40), ("Femor Hills Carpet", 80), ("Darashia", 0)] := by decide
    rw [hconc] at hadj
    simp only [List.mem_cons, List.not_mem_nil, or_false, Prod.mk.injEq] at hadj
    rcases hadj with ⟨rfl, rfl⟩ | ⟨rfl, rfl⟩ | ⟨rfl, rfl⟩
    · decide
    · decide
    · exact absurd rfl hne

/-- Witness for (amended) C8 at `[Edron, Edron Carpet, Darashia Carpet]`. -/
theorem C8_witness :
    (("Edron", "Edron Carpet") ∈
        [("Edron", "Edron Carpet"), ("Darashia", "Darashia Carpet")]) ∧
      (("Darashia Carpet", 40) ∈ adjOf (build_graph true) "Edron Carpet") ∧
      ("Darashia Carpet" : String) ≠ "Edron" ∧
      format_route ["Edron", "Edron Carpet", "Darashia Carpet"] (build_graph true) =
        [{ «from» := "Edron Carpet", «to» := "Darashia Carpet", cost := 40,
            transport := "🪂 Carpet" }] :=
  ⟨by decide, by decide, by decide,
    C8_collapse_leg "Edron" "Edron Carpet" "Darashia Carpet" 40 (by decide) (by decide)
      (by decide)⟩

/-- C9: for every graph built by `build_graph` and distinct locations,
`dijkstra` returns a minimum-cost simple path together with its cost, and
returns `none` exactly when no simple path exists. -/
theorem C9_dijkstra_optimal (carpets : Bool) (s e : String) (hse : s ≠ e) :
    (∀ cp, dijkstra (build_graph carpets) s e = some cp →
        SimplePathFrom (build_graph carpets) s e cp.2 ∧
          cp.1 = pathCost (build_graph carpets) cp.2 ∧
          ∀ q, SimplePathFrom (build_graph carpets) s e q →
            cp.1 ≤ pathCost (build_graph carpets) q) ∧
      (dijkstra (build_graph carpets) s e = none ↔
        ∀ q, ¬ SimplePathFrom (build_graph carpets) s e q) := by
  have hnb := nodupNbrs_build carpets
  constructor
  · intro cp h
    exact dijkstra_some_spec hnb h
  · constructor
    · intro h
      exact dijkstra_none_spec hnb hse h
    · intro h
      cases hd : dijkstra (build_graph carpets) s e with
      | none => rfl
      | some cp =>
        exact absurd (dijkstra_some_spec hnb hd).1 (h cp.2)

/-- Witness for C9 at the Darashia→Venore query. -/
theorem C9_witness :
    ("Darashia" ≠ "Venore") ∧
      (dijkstra (build_graph false) "Darashia" "Venore" = none ↔
        ∀ q, ¬ SimplePathFrom (build_graph false) "Darashia" "Venore" q) :=
  ⟨by decide, (C9_dijkstra_optimal false "Darashia" "Venore" (by decide)).2⟩

/-- C10: cost accounting is conserved through formatting: for every route
returned by `find_all_routes` over a built graph, the per-leg costs of
`format_route` sum to the route's total cost. -/
theorem C10_cost_conserved (carpets : Bool) (s e : String) (m : Nat)
    (r : Nat × List String) (h : r ∈ find_all_routes (build_graph carpets) s e m) :
    ((format_route r.2 (build_graph carpets)).map (fun leg => leg.cost)).sum = r.1 := by
  obtain ⟨l, hlk, hfd⟩ := mem_find_all_routes h
  have hcost : r.1 = pathCost (build_graph carpets) r.2 :=
    (finalState_costOK (nodupNbrs_build carpets) s e m).2 r hfd
  rw [hcost]
  exact format_route_cost_sum (fun a b hab => skip_edgeCost_zero carpets hab) r.2

/-- Witness for C10 at the Darashia→Venore query. -/
theorem C10_witness :
    (60, ["Darashia", "Venore"]) ∈ find_all_routes (build_graph false) "Darashia" "Venore" 2 ∧
      ((format_route ["Darashia", "Venore"] (build_graph false)).map
        (fun leg => leg.cost)).sum = 60 :=
  ⟨by decide,
    C10_cost_conserved false "Darashia" "Venore" 2 (60, ["Darashia", "Venore"]) (by decide)⟩
